import Mathlib

/-!
Verification of the `cmdconfig` command-configuration parser and formatter
(`parser.go`) against its specification.

The embedding models Go byte strings as `List Nat` (each element one byte
value), Go's multiple return values `(string, error)` as tuples whose last
component is an `Option ScanError`, and the mutable `*Scanner` receiver by
returning the updated scanner alongside the Go return values: for a
sub-parser `p`, `(sc.p).1` is the scanner after the call, `(sc.p).2.1` the
returned string and `(sc.p).2.2` the returned error.  Go's
`v, err := s.p(); if err != nil { ... }` is rendered as a test of
`(sc.p).2.2 = none`.  Every definition mirrors the corresponding Go
function statement by statement; `for s.pos < len(s.s)` loops become
recursion on `s.length - pos`.
-/

/-! ### Byte classification (parser.go lines 10-37) -/

/-- Byte predicate for a single quote. -/
def isQuote1 (b : Nat) : Bool := b == 39

/-- Byte predicate for a double quote. -/
def isQuote2 (b : Nat) : Bool := b == 34

/-- Space or tab. -/
def isSpace (b : Nat) : Bool := b == 32 || b == 9

/-- Opening brace. -/
def isLeftBrace (b : Nat) : Bool := b == 123

/-- Newline byte. -/
def isNewLine (b : Nat) : Bool := b == 10

/-- Backtick byte. -/
def isBackQuote (b : Nat) : Bool := b == 96

/-- `isBareword` from parser.go: anything that is not a control byte,
whitespace, quote, brace or backtick. -/
def isBareword (b : Nat) : Bool :=
  if b < 32 then false
  else if isSpace b then false
  else if isQuote1 b then false
  else if isQuote2 b then false
  else if isLeftBrace b then false
  else if isBackQuote b then false
  else true

/-! ### Position, ScanError, Scanner (parser.go lines 39-119) -/

/-- A location in the input: 1-based line and column, 0-based byte offset. -/
structure Position where
  line : Nat
  column : Nat
  offset : Nat
deriving DecidableEq, Repr

/-- A parsing error with location information. -/
structure ScanError where
  pos : Position
  msg : String
deriving DecidableEq, Repr

/-- The scanner state: input bytes, cursor, line/column tracking, and the
base offset used by nested scanners. -/
structure Scanner where
  s : List Nat
  pos : Nat
  line : Nat
  column : Nat
  baseOffset : Nat
deriving DecidableEq, Repr

/-- `NewScanner` from parser.go. -/
def NewScanner (input : List Nat) : Scanner :=
  { s := input, pos := 0, line := 1, column := 1, baseOffset := 0 }

/-- `currentPos` from parser.go. -/
def Scanner.currentPos (sc : Scanner) : Position :=
  { line := sc.line, column := sc.column, offset := sc.baseOffset + sc.pos }

/-- `NewFromScanner` from parser.go: a new scanner over `input` that starts
at the parent's current line, column 1, with the parent's current absolute
offset as its base offset. -/
def NewFromScanner (parent : Scanner) (input : List Nat) : Scanner :=
  { s := input, pos := 0, line := parent.currentPos.line, column := 1,
    baseOffset := parent.currentPos.offset }

/-- `advance` from parser.go: move one byte forward, updating line/column. -/
def Scanner.advance (sc : Scanner) : Scanner :=
  if sc.s.get? sc.pos = some 10 then
    { sc with line := sc.line + 1, column := 1, pos := sc.pos + 1 }
  else
    { sc with column := sc.column + 1, pos := sc.pos + 1 }

/-- `errorAt` from parser.go. -/
def Scanner.errorAt (sc : Scanner) (msg : String) : ScanError :=
  { pos := sc.currentPos, msg := msg }

/-- The Go slice expression `s.s[i:j]`. -/
def subSlice (l : List Nat) (i j : Nat) : List Nat := (l.drop i).take (j - i)

theorem Scanner.advance_s (sc : Scanner) : sc.advance.s = sc.s := by
  unfold Scanner.advance; split <;> rfl

theorem Scanner.advance_pos (sc : Scanner) : sc.advance.pos = sc.pos + 1 := by
  unfold Scanner.advance; split <;> rfl

/-! ### Escape decoders (parser.go lines 226-292) -/

/-- The switch in `parseBackslashEscape`: what a backslash followed by byte
`b` decodes to inside barewords and double-quoted strings.  A backslash
before a newline is a line continuation and contributes nothing; any
unknown byte is taken literally. -/
def escDecode (b : Nat) : List Nat :=
  if b = 110 then [10]
  else if b = 114 then [13]
  else if b = 116 then [9]
  else if b = 92 then [92]
  else if b = 34 then [34]
  else if b = 39 then [39]
  else if b = 10 then []
  else [b]

/-- The switch in `parseBraceEscape`: only braces and backslash are decoded;
any other escape is passed through as the literal two-byte sequence. -/
def braceEscDecode (b : Nat) : List Nat :=
  if b = 123 then [123]
  else if b = 125 then [125]
  else if b = 92 then [92]
  else [92, b]

/-- `parseBackslashEscape` from parser.go: check for end of input, skip the
backslash, check again, then decode the escaped byte.  (Go writes both
checks as `s.pos >= len(s.s)`.) -/
def Scanner.parseBackslashEscape (sc : Scanner) : Scanner × List Nat × Option ScanError :=
  if sc.s.length ≤ sc.pos then (sc, [], some (sc.errorAt "got EOF after backslash"))
  else
    if h : sc.advance.pos < sc.advance.s.length then
      (sc.advance.advance, escDecode (sc.advance.s[sc.advance.pos]), none)
    else (sc.advance, [], some (sc.advance.errorAt "got EOF after backslash"))

/-- `parseBraceEscape` from parser.go. -/
def Scanner.parseBraceEscape (sc : Scanner) : Scanner × List Nat × Option ScanError :=
  if sc.s.length ≤ sc.pos then (sc, [], some (sc.errorAt "got EOF after backslash"))
  else
    if h : sc.advance.pos < sc.advance.s.length then
      (sc.advance.advance, braceEscDecode (sc.advance.s[sc.advance.pos]), none)
    else (sc.advance, [], some (sc.advance.errorAt "got EOF after backslash"))

theorem Scanner.parseBackslashEscape_s_pos (sc : Scanner) :
    (sc.parseBackslashEscape.1.s = sc.s) ∧ sc.pos ≤ sc.parseBackslashEscape.1.pos := by
  unfold Scanner.parseBackslashEscape
  split
  · exact ⟨rfl, Nat.le_refl _⟩
  · split
    · refine ⟨?_, ?_⟩
      · show sc.advance.advance.s = sc.s
        rw [Scanner.advance_s, Scanner.advance_s]
      · show sc.pos ≤ sc.advance.advance.pos
        rw [Scanner.advance_pos, Scanner.advance_pos]
        omega
    · refine ⟨?_, ?_⟩
      · show sc.advance.s = sc.s
        rw [Scanner.advance_s]
      · show sc.pos ≤ sc.advance.pos
        rw [Scanner.advance_pos]
        omega

theorem Scanner.parseBraceEscape_s_pos (sc : Scanner) :
    (sc.parseBraceEscape.1.s = sc.s) ∧ sc.pos ≤ sc.parseBraceEscape.1.pos := by
  unfold Scanner.parseBraceEscape
  split
  · exact ⟨rfl, Nat.le_refl _⟩
  · split
    · refine ⟨?_, ?_⟩
      · show sc.advance.advance.s = sc.s
        rw [Scanner.advance_s, Scanner.advance_s]
      · show sc.pos ≤ sc.advance.advance.pos
        rw [Scanner.advance_pos, Scanner.advance_pos]
        omega
    · refine ⟨?_, ?_⟩
      · show sc.advance.s = sc.s
        rw [Scanner.advance_s]
      · show sc.pos ≤ sc.advance.pos
        rw [Scanner.advance_pos]
        omega

theorem Scanner.parseBackslashEscape_ok (sc : Scanner)
    (he : sc.parseBackslashEscape.2.2 = none) :
    sc.parseBackslashEscape.1.s = sc.s ∧ sc.parseBackslashEscape.1.pos = sc.pos + 2 := by
  unfold Scanner.parseBackslashEscape at he ⊢
  split at he
  · simp at he
  · rename_i hle
    rw [if_neg hle]
    split at he
    · rename_i hlt
      rw [dif_pos hlt]
      refine ⟨?_, ?_⟩
      · show sc.advance.advance.s = sc.s
        rw [Scanner.advance_s, Scanner.advance_s]
      · show sc.advance.advance.pos = sc.pos + 2
        rw [Scanner.advance_pos, Scanner.advance_pos]
    · simp at he

theorem Scanner.parseBraceEscape_ok (sc : Scanner)
    (he : sc.parseBraceEscape.2.2 = none) :
    sc.parseBraceEscape.1.s = sc.s ∧ sc.parseBraceEscape.1.pos = sc.pos + 2 := by
  unfold Scanner.parseBraceEscape at he ⊢
  split at he
  · simp at he
  · rename_i hle
    rw [if_neg hle]
    split at he
    · rename_i hlt
      rw [dif_pos hlt]
      refine ⟨?_, ?_⟩
      · show sc.advance.advance.s = sc.s
        rw [Scanner.advance_s, Scanner.advance_s]
      · show sc.advance.advance.pos = sc.pos + 2
        rw [Scanner.advance_pos, Scanner.advance_pos]
    · simp at he

/-! ### Quote sub-parsers (parser.go lines 166-224) -/

/-- The scan loop of `parseQuote1`: consume to the next single quote. -/
def Scanner.parseQuote1Loop (sc : Scanner) (i : Nat) : Scanner × List Nat × Option ScanError :=
  if h : sc.pos < sc.s.length then
    if sc.s[sc.pos] = 39 then (sc.advance, subSlice sc.s i sc.pos, none)
    else sc.advance.parseQuote1Loop i
  else (sc, [], some (sc.errorAt "got EOF in single quote"))
termination_by sc.s.length - sc.pos
decreasing_by
  simp only [Scanner.advance_s, Scanner.advance_pos]
  omega

/-- `parseQuote1` from parser.go: skip the opening quote, then scan. -/
def Scanner.parseQuote1 (sc : Scanner) : Scanner × List Nat × Option ScanError :=
  sc.advance.parseQuote1Loop sc.advance.pos

/-- The scan loop of `parseBackQuote`: consume to the next backtick. -/
def Scanner.parseBackQuoteLoop (sc : Scanner) (i : Nat) : Scanner × List Nat × Option ScanError :=
  if h : sc.pos < sc.s.length then
    if sc.s[sc.pos] = 96 then (sc.advance, subSlice sc.s i sc.pos, none)
    else sc.advance.parseBackQuoteLoop i
  else (sc, [], some (sc.errorAt "got EOF in back quote"))
termination_by sc.s.length - sc.pos
decreasing_by
  simp only [Scanner.advance_s, Scanner.advance_pos]
  omega

/-- `parseBackQuote` from parser.go. -/
def Scanner.parseBackQuote (sc : Scanner) : Scanner × List Nat × Option ScanError :=
  sc.advance.parseBackQuoteLoop sc.advance.pos

theorem Scanner.parseQuote1Loop_s_pos (sc : Scanner) (i : Nat) :
    ((sc.parseQuote1Loop i).1.s = sc.s) ∧ sc.pos ≤ (sc.parseQuote1Loop i).1.pos := by
  induction sc, i using Scanner.parseQuote1Loop.induct with
  | case1 sc i h hq =>
    rw [Scanner.parseQuote1Loop, dif_pos h, if_pos hq]
    refine ⟨Scanner.advance_s sc, ?_⟩
    rw [Scanner.advance_pos]
    omega
  | case2 sc i h hq ih =>
    rw [Scanner.parseQuote1Loop, dif_pos h, if_neg hq]
    refine ⟨ih.1.trans (Scanner.advance_s sc), ?_⟩
    have h2 := ih.2
    have hp := Scanner.advance_pos sc
    omega
  | case3 sc i h =>
    rw [Scanner.parseQuote1Loop, dif_neg h]
    exact ⟨rfl, Nat.le_refl _⟩

theorem Scanner.parseQuote1_s_pos (sc : Scanner) :
    (sc.parseQuote1.1.s = sc.s) ∧ sc.pos < sc.parseQuote1.1.pos := by
  unfold Scanner.parseQuote1
  have h := sc.advance.parseQuote1Loop_s_pos sc.advance.pos
  refine ⟨h.1.trans (Scanner.advance_s sc), ?_⟩
  have h2 := h.2
  have hp := Scanner.advance_pos sc
  omega

theorem Scanner.parseBackQuoteLoop_s_pos (sc : Scanner) (i : Nat) :
    ((sc.parseBackQuoteLoop i).1.s = sc.s) ∧ sc.pos ≤ (sc.parseBackQuoteLoop i).1.pos := by
  induction sc, i using Scanner.parseBackQuoteLoop.induct with
  | case1 sc i h hq =>
    rw [Scanner.parseBackQuoteLoop, dif_pos h, if_pos hq]
    refine ⟨Scanner.advance_s sc, ?_⟩
    rw [Scanner.advance_pos]
    omega
  | case2 sc i h hq ih =>
    rw [Scanner.parseBackQuoteLoop, dif_pos h, if_neg hq]
    refine ⟨ih.1.trans (Scanner.advance_s sc), ?_⟩
    have h2 := ih.2
    have hp := Scanner.advance_pos sc
    omega
  | case3 sc i h =>
    rw [Scanner.parseBackQuoteLoop, dif_neg h]
    exact ⟨rfl, Nat.le_refl _⟩

theorem Scanner.parseBackQuote_s_pos (sc : Scanner) :
    (sc.parseBackQuote.1.s = sc.s) ∧ sc.pos < sc.parseBackQuote.1.pos := by
  unfold Scanner.parseBackQuote
  have h := sc.advance.parseBackQuoteLoop_s_pos sc.advance.pos
  refine ⟨h.1.trans (Scanner.advance_s sc), ?_⟩
  have h2 := h.2
  have hp := Scanner.advance_pos sc
  omega

/-- The scan loop of `parseQuote2`: consume to the next unescaped double
quote, decoding backslash escapes along the way. -/
def Scanner.parseQuote2Loop (sc : Scanner) (i : Nat) (out : List Nat) :
    Scanner × List Nat × Option ScanError :=
  if h : sc.pos < sc.s.length then
    if sc.s[sc.pos] = 34 then (sc.advance, out ++ subSlice sc.s i sc.pos, none)
    else if sc.s[sc.pos] = 92 then
      if he : sc.parseBackslashEscape.2.2 = none then
        sc.parseBackslashEscape.1.parseQuote2Loop sc.parseBackslashEscape.1.pos
          (out ++ subSlice sc.s i sc.pos ++ sc.parseBackslashEscape.2.1)
      else (sc.parseBackslashEscape.1, out ++ subSlice sc.s i sc.pos,
        sc.parseBackslashEscape.2.2)
    else sc.advance.parseQuote2Loop i out
  else (sc, [], some (sc.errorAt "got EOF in double quote"))
termination_by sc.s.length - sc.pos
decreasing_by
  · obtain ⟨hs, hp⟩ := Scanner.parseBackslashEscape_ok sc he
    rw [hs, hp]
    omega
  · simp only [Scanner.advance_s, Scanner.advance_pos]
    omega

/-- `parseQuote2` from parser.go. -/
def Scanner.parseQuote2 (sc : Scanner) : Scanner × List Nat × Option ScanError :=
  sc.advance.parseQuote2Loop sc.advance.pos []

theorem Scanner.parseQuote2Loop_s_pos (sc : Scanner) (i : Nat) (out : List Nat) :
    ((sc.parseQuote2Loop i out).1.s = sc.s) ∧ sc.pos ≤ (sc.parseQuote2Loop i out).1.pos := by
  induction sc, i, out using Scanner.parseQuote2Loop.induct with
  | case1 sc i out h hq =>
    rw [Scanner.parseQuote2Loop, dif_pos h, if_pos hq]
    refine ⟨Scanner.advance_s sc, ?_⟩
    rw [Scanner.advance_pos]
    omega
  | case2 sc i out h hq hb he ih =>
    rw [Scanner.parseQuote2Loop, dif_pos h, if_neg hq, if_pos hb, dif_pos he]
    obtain ⟨hs, hp⟩ := Scanner.parseBackslashEscape_ok sc he
    refine ⟨ih.1.trans hs, ?_⟩
    have h2 := ih.2
    omega
  | case3 sc i out h hq hb he =>
    rw [Scanner.parseQuote2Loop, dif_pos h, if_neg hq, if_pos hb, dif_neg he]
    have hm := sc.parseBackslashEscape_s_pos
    exact ⟨hm.1, hm.2⟩
  | case4 sc i out h hq hb ih =>
    rw [Scanner.parseQuote2Loop, dif_pos h, if_neg hq, if_neg hb]
    refine ⟨ih.1.trans (Scanner.advance_s sc), ?_⟩
    have h2 := ih.2
    have hp := Scanner.advance_pos sc
    omega
  | case5 sc i out h =>
    rw [Scanner.parseQuote2Loop, dif_neg h]
    exact ⟨rfl, Nat.le_refl _⟩

theorem Scanner.parseQuote2_s_pos (sc : Scanner) :
    (sc.parseQuote2.1.s = sc.s) ∧ sc.pos < sc.parseQuote2.1.pos := by
  unfold Scanner.parseQuote2
  have h := sc.advance.parseQuote2Loop_s_pos sc.advance.pos []
  refine ⟨h.1.trans (Scanner.advance_s sc), ?_⟩
  have h2 := h.2
  have hp := Scanner.advance_pos sc
  omega

/-! ### Bareword sub-parser (parser.go lines 120-165) -/

/-- The scan loop of `parseBareword`: accumulate literal bytes, splice in
single- and double-quoted segments and backslash escapes, and stop at
whitespace, a newline, or end of input. -/
def Scanner.parseBarewordLoop (sc : Scanner) (i : Nat) (out : List Nat) :
    Scanner × List Nat × Option ScanError :=
  if h : sc.pos < sc.s.length then
    if isSpace (sc.s[sc.pos]) then (sc, out ++ subSlice sc.s i sc.pos, none)
    else if isQuote1 (sc.s[sc.pos]) then
      if hq : sc.parseQuote1.2.2 = none then
        sc.parseQuote1.1.parseBarewordLoop sc.parseQuote1.1.pos
          (out ++ subSlice sc.s i sc.pos ++ sc.parseQuote1.2.1)
      else (sc.parseQuote1.1, out ++ subSlice sc.s i sc.pos, sc.parseQuote1.2.2)
    else if isQuote2 (sc.s[sc.pos]) then
      if hq : sc.parseQuote2.2.2 = none then
        sc.parseQuote2.1.parseBarewordLoop sc.parseQuote2.1.pos
          (out ++ subSlice sc.s i sc.pos ++ sc.parseQuote2.2.1)
      else (sc.parseQuote2.1, out ++ subSlice sc.s i sc.pos, sc.parseQuote2.2.2)
    else if sc.s[sc.pos] = 10 then (sc, out ++ subSlice sc.s i sc.pos, none)
    else if sc.s[sc.pos] = 92 then
      if he : sc.parseBackslashEscape.2.2 = none then
        sc.parseBackslashEscape.1.parseBarewordLoop sc.parseBackslashEscape.1.pos
          (out ++ subSlice sc.s i sc.pos ++ sc.parseBackslashEscape.2.1)
      else (sc.parseBackslashEscape.1, out ++ subSlice sc.s i sc.pos,
        sc.parseBackslashEscape.2.2)
    else sc.advance.parseBarewordLoop i out
  else
    if out = [] then (sc, subSlice sc.s i sc.s.length, none)
    else (sc, out ++ subSlice sc.s i sc.s.length, none)
termination_by sc.s.length - sc.pos
decreasing_by
  · have hm := sc.parseQuote1_s_pos
    rw [hm.1]
    have hp := hm.2
    omega
  · have hm := sc.parseQuote2_s_pos
    rw [hm.1]
    have hp := hm.2
    omega
  · obtain ⟨hs, hp⟩ := Scanner.parseBackslashEscape_ok sc he
    rw [hs, hp]
    omega
  · simp only [Scanner.advance_s, Scanner.advance_pos]
    omega

/-- `parseBareword` from parser.go. -/
def Scanner.parseBareword (sc : Scanner) : Scanner × List Nat × Option ScanError :=
  sc.parseBarewordLoop sc.pos []

theorem Scanner.parseBarewordLoop_s_pos (sc : Scanner) (i : Nat) (out : List Nat) :
    ((sc.parseBarewordLoop i out).1.s = sc.s) ∧ sc.pos ≤ (sc.parseBarewordLoop i out).1.pos := by
  induction sc, i, out using Scanner.parseBarewordLoop.induct with
  | case1 sc i out h hsp =>
    rw [Scanner.parseBarewordLoop, dif_pos h, if_pos hsp]
    exact ⟨rfl, Nat.le_refl _⟩
  | case2 sc i out h hsp hq1 hq ih =>
    rw [Scanner.parseBarewordLoop, dif_pos h, if_neg hsp, if_pos hq1, dif_pos hq]
    have hm := sc.parseQuote1_s_pos
    refine ⟨ih.1.trans hm.1, ?_⟩
    have h2 := ih.2
    have h3 := hm.2
    omega
  | case3 sc i out h hsp hq1 hq =>
    rw [Scanner.parseBarewordLoop, dif_pos h, if_neg hsp, if_pos hq1, dif_neg hq]
    have hm := sc.parseQuote1_s_pos
    exact ⟨hm.1, Nat.le_of_lt hm.2⟩
  | case4 sc i out h hsp hq1 hq2 hq ih =>
    rw [Scanner.parseBarewordLoop, dif_pos h, if_neg hsp, if_neg hq1, if_pos hq2, dif_pos hq]
    have hm := sc.parseQuote2_s_pos
    refine ⟨ih.1.trans hm.1, ?_⟩
    have h2 := ih.2
    have h3 := hm.2
    omega
  | case5 sc i out h hsp hq1 hq2 hq =>
    rw [Scanner.parseBarewordLoop, dif_pos h, if_neg hsp, if_neg hq1, if_pos hq2, dif_neg hq]
    have hm := sc.parseQuote2_s_pos
    exact ⟨hm.1, Nat.le_of_lt hm.2⟩
  | case6 sc i out h hsp hq1 hq2 hnl =>
    rw [Scanner.parseBarewordLoop, dif_pos h, if_neg hsp, if_neg hq1, if_neg hq2, if_pos hnl]
    exact ⟨rfl, Nat.le_refl _⟩
  | case7 sc i out h hsp hq1 hq2 hnl hbs he ih =>
    rw [Scanner.parseBarewordLoop, dif_pos h, if_neg hsp, if_neg hq1, if_neg hq2,
      if_neg hnl, if_pos hbs, dif_pos he]
    obtain ⟨hs, hp⟩ := Scanner.parseBackslashEscape_ok sc he
    refine ⟨ih.1.trans hs, ?_⟩
    have h2 := ih.2
    omega
  | case8 sc i out h hsp hq1 hq2 hnl hbs he =>
    rw [Scanner.parseBarewordLoop, dif_pos h, if_neg hsp, if_neg hq1, if_neg hq2,
      if_neg hnl, if_pos hbs, dif_neg he]
    have hm := sc.parseBackslashEscape_s_pos
    exact ⟨hm.1, hm.2⟩
  | case9 sc i out h hsp hq1 hq2 hnl hbs ih =>
    rw [Scanner.parseBarewordLoop, dif_pos h, if_neg hsp, if_neg hq1, if_neg hq2,
      if_neg hnl, if_neg hbs]
    refine ⟨ih.1.trans (Scanner.advance_s sc), ?_⟩
    have h2 := ih.2
    have hp := Scanner.advance_pos sc
    omega
  | case10 sc i h =>
    rw [Scanner.parseBarewordLoop, dif_neg h, if_pos rfl]
    exact ⟨rfl, Nat.le_refl _⟩
  | case11 sc i out h hout =>
    rw [Scanner.parseBarewordLoop, dif_neg h, if_neg hout]
    exact ⟨rfl, Nat.le_refl _⟩

/-! ### Dedent (parser.go lines 481-563) -/

/-- Whether `strings.TrimSpace(line)` is empty: every byte is ASCII
whitespace.  (Go trims Unicode space characters; the multi-byte encodings
of U+0085 and U+00A0 are not modelled, which only matters for bodies
containing those exact byte sequences.) -/
def isBlankLine (l : List Nat) : Bool :=
  l.all (fun b => b == 32 || b == 9 || b == 10 || b == 13 || b == 11 || b == 12)

/-- The leading run of space and tab characters of a line. -/
def leadingWhitespaceOf (l : List Nat) : List Nat :=
  l.takeWhile (fun b => b == 32 || b == 9)

/-- The inner loop of `dedent`'s prefix computation: the byte-by-byte
longest common prefix of two strings, stopping at the first mismatch. -/
def commonPrefix2 (a b : List Nat) : List Nat :=
  match a, b with
  | x :: xs, y :: ys => if x = y then x :: commonPrefix2 xs ys else []
  | _, _ => []

/-- The body of `dedent`'s final loop: a blank line is kept, a line that
starts with the common whitespace `commonPref` loses it, anything else is
kept (the defensive `else` of the Go code). -/
def dedentStripLine (commonPref line : List Nat) : List Nat :=
  if isBlankLine line then line
  else if commonPref.length ≤ line.length && line.take commonPref.length == commonPref then
    line.drop commonPref.length
  else line

/-- `dedent` from parser.go: remove the leading whitespace prefix common to
all non-blank lines; return the input unchanged if it is empty, a single
line, all blank, or if the common prefix is empty. -/
def dedent (s : List Nat) : List Nat :=
  if s = [] then s
  else
    let lines := s.splitOn 10
    if lines.length ≤ 1 then s
    else
      let nonEmptyLines := lines.filter (fun line => !isBlankLine line)
      match nonEmptyLines.map leadingWhitespaceOf with
      | [] => s
      | w :: rest =>
        let commonPref := rest.foldl commonPrefix2 w
        if commonPref = [] then s
        else List.intercalate [10] (lines.map (dedentStripLine commonPref))

/-! ### Brace sub-parser (parser.go lines 294-331) -/

/-- The scan loop of `parseBrace`: track nesting depth, decode the minimal
escapes, and close when depth reaches zero; the collected body is passed
through `dedent`. -/
def Scanner.parseBraceLoop (sc : Scanner) (i : Nat) (out : List Nat) (stack : Nat) :
    Scanner × List Nat × Option ScanError :=
  if h : sc.pos < sc.s.length then
    if sc.s[sc.pos] = 92 then
      if he : sc.parseBraceEscape.2.2 = none then
        sc.parseBraceEscape.1.parseBraceLoop sc.parseBraceEscape.1.pos
          (out ++ subSlice sc.s i sc.pos ++ sc.parseBraceEscape.2.1) stack
      else (sc.parseBraceEscape.1, out ++ subSlice sc.s i sc.pos, sc.parseBraceEscape.2.2)
    else if sc.s[sc.pos] = 123 then sc.advance.parseBraceLoop i out (stack + 1)
    else if sc.s[sc.pos] = 125 then
      if stack - 1 = 0 then (sc.advance, dedent (out ++ subSlice sc.s i sc.pos), none)
      else sc.advance.parseBraceLoop i out (stack - 1)
    else sc.advance.parseBraceLoop i out stack
  else (sc, [], some (sc.errorAt "got EOF in opening brace"))
termination_by sc.s.length - sc.pos
decreasing_by
  · obtain ⟨hs, hp⟩ := Scanner.parseBraceEscape_ok sc he
    rw [hs, hp]
    omega
  · simp only [Scanner.advance_s, Scanner.advance_pos]
    omega
  · simp only [Scanner.advance_s, Scanner.advance_pos]
    omega
  · simp only [Scanner.advance_s, Scanner.advance_pos]
    omega

/-- `parseBrace` from parser.go: skip the opening brace and scan with an
initial depth of 1. -/
def Scanner.parseBrace (sc : Scanner) : Scanner × List Nat × Option ScanError :=
  sc.advance.parseBraceLoop sc.advance.pos [] 1

/-! ### The iterator (parser.go lines 333-382) -/

/-- The result of one scan step that is not a command: the end-of-input
signal (Go's `io.EOF`), a `ScanError`, or — see `Scanner.NextLoop` — the
marker for an input on which the Go loop never terminates. -/
inductive NextErr where
  | eof
  | diverge
  | scan (e : ScanError)
deriving DecidableEq, Repr

theorem Scanner.parseBareword_progress (sc : Scanner) (h : sc.pos < sc.s.length)
    (hg : (isBareword (sc.s[sc.pos]) || isQuote1 (sc.s[sc.pos]) || isQuote2 (sc.s[sc.pos]) ||
      sc.s[sc.pos] == 92) = true) :
    (sc.parseBareword.1.s = sc.s) ∧ sc.pos < sc.parseBareword.1.pos := by
  have hsp : ¬ isSpace (sc.s[sc.pos]) = true := by
    intro hs
    have hor : sc.s[sc.pos] = 32 ∨ sc.s[sc.pos] = 9 := by simpa [isSpace] using hs
    rcases hor with h32 | h9
    · rw [h32] at hg
      exact absurd hg (by decide)
    · rw [h9] at hg
      exact absurd hg (by decide)
  have hnl : ¬ sc.s[sc.pos] = 10 := by
    intro he
    rw [he] at hg
    exact absurd hg (by decide)
  unfold Scanner.parseBareword
  rw [Scanner.parseBarewordLoop, dif_pos h, if_neg hsp]
  by_cases hq1 : isQuote1 (sc.s[sc.pos]) = true
  · rw [if_pos hq1]
    have hm := sc.parseQuote1_s_pos
    by_cases hqe : sc.parseQuote1.2.2 = none
    · rw [dif_pos hqe]
      have hl := sc.parseQuote1.1.parseBarewordLoop_s_pos sc.parseQuote1.1.pos
        ([] ++ subSlice sc.s sc.pos sc.pos ++ sc.parseQuote1.2.1)
      refine ⟨hl.1.trans hm.1, ?_⟩
      have h2 := hl.2
      have h3 := hm.2
      omega
    · rw [dif_neg hqe]
      exact ⟨hm.1, hm.2⟩
  · rw [if_neg hq1]
    by_cases hq2 : isQuote2 (sc.s[sc.pos]) = true
    · rw [if_pos hq2]
      have hm := sc.parseQuote2_s_pos
      by_cases hqe : sc.parseQuote2.2.2 = none
      · rw [dif_pos hqe]
        have hl := sc.parseQuote2.1.parseBarewordLoop_s_pos sc.parseQuote2.1.pos
          ([] ++ subSlice sc.s sc.pos sc.pos ++ sc.parseQuote2.2.1)
        refine ⟨hl.1.trans hm.1, ?_⟩
        have h2 := hl.2
        have h3 := hm.2
        omega
      · rw [dif_neg hqe]
        exact ⟨hm.1, hm.2⟩
    · rw [if_neg hq2, if_neg hnl]
      by_cases hbs : sc.s[sc.pos] = 92
      · rw [if_pos hbs]
        by_cases hqe : sc.parseBackslashEscape.2.2 = none
        · rw [dif_pos hqe]
          obtain ⟨hs, hp⟩ := Scanner.parseBackslashEscape_ok sc hqe
          have hl := sc.parseBackslashEscape.1.parseBarewordLoop_s_pos
            sc.parseBackslashEscape.1.pos
            ([] ++ subSlice sc.s sc.pos sc.pos ++ sc.parseBackslashEscape.2.1)
          refine ⟨hl.1.trans hs, ?_⟩
          have h2 := hl.2
          omega
        · rw [dif_neg hqe]
          have hm := sc.parseBackslashEscape_s_pos
          refine ⟨hm.1, ?_⟩
          unfold Scanner.parseBackslashEscape at hqe ⊢
          rw [if_neg (by omega)] at hqe ⊢
          split at hqe
          · simp at hqe
          · rename_i hlt
            rw [dif_neg hlt]
            show sc.pos < sc.advance.pos
            rw [Scanner.advance_pos]
            omega
      · rw [if_neg hbs]
        have hl := sc.advance.parseBarewordLoop_s_pos sc.pos []
        refine ⟨hl.1.trans (Scanner.advance_s sc), ?_⟩
        have h2 := hl.2
        have hp := Scanner.advance_pos sc
        omega

/-- `Next` from parser.go, as the loop over its accumulated arguments.  The
Go loop body is a `switch` with no case for control bytes other than tab
and newline: on such a byte it changes nothing and tests the same byte
again, so the Go function never returns.  That state is modelled by the
`NextErr.diverge` result, returned exactly when the Go loop repeats a state
forever. -/
def Scanner.NextLoop (sc : Scanner) (args : List (List Nat)) :
    Scanner × List (List Nat) × List Nat × Option NextErr :=
  if h : sc.pos < sc.s.length then
    if isSpace (sc.s[sc.pos]) then sc.advance.NextLoop args
    else if isBareword (sc.s[sc.pos]) || isQuote1 (sc.s[sc.pos]) || isQuote2 (sc.s[sc.pos]) ||
        sc.s[sc.pos] == 92 then
      if hq : sc.parseBareword.2.2 = none then
        sc.parseBareword.1.NextLoop (args ++ [sc.parseBareword.2.1])
      else (sc.parseBareword.1, args, [], (sc.parseBareword.2.2).map NextErr.scan)
    else if isBackQuote (sc.s[sc.pos]) then
      if hq : sc.parseBackQuote.2.2 = none then
        sc.parseBackQuote.1.NextLoop (args ++ [sc.parseBackQuote.2.1])
      else (sc.parseBackQuote.1, args, [], (sc.parseBackQuote.2.2).map NextErr.scan)
    else if isLeftBrace (sc.s[sc.pos]) then
      (sc.parseBrace.1, args, sc.parseBrace.2.1, (sc.parseBrace.2.2).map NextErr.scan)
    else if isNewLine (sc.s[sc.pos]) then
      if args.length > 0 then (sc.advance, args, [], none)
      else sc.advance.NextLoop args
    else (sc, args, [], some NextErr.diverge)
  else
    if args = [] then (sc, [], [], some NextErr.eof)
    else (sc, args, [], none)
termination_by sc.s.length - sc.pos
decreasing_by
  · simp only [Scanner.advance_s, Scanner.advance_pos]
    omega
  · have hp := Scanner.parseBareword_progress sc h (by assumption)
    rw [hp.1]
    have h2 := hp.2
    omega
  · have hm := sc.parseBackQuote_s_pos
    rw [hm.1]
    have h2 := hm.2
    omega
  · simp only [Scanner.advance_s, Scanner.advance_pos]
    omega

/-- `Next` from parser.go: assemble one command, starting from an empty
argument list. -/
def Scanner.Next (sc : Scanner) :
    Scanner × List (List Nat) × List Nat × Option NextErr :=
  sc.NextLoop []

/-! ### Formatter (parser.go lines 384-479 and 565-569) -/

/-- `isBarewordString` from parser.go: a non-empty string of bareword bytes
with no backslash can be emitted unquoted. -/
def isBarewordString (a : List Nat) : Bool :=
  if a = [] then false
  else a.all (fun b => isBareword b && !(b == 92))

/-- One lowercase hexadecimal digit, as produced by Go's `%02x` verb. -/
def hexDigit (n : Nat) : Nat := if n < 10 then 48 + n else 97 + (n - 10)

/-- The escape applied to one byte by `quoteArg`'s manual quoting loop
(taken when the argument contains a brace). -/
def quoteArgEscByte (b : Nat) : List Nat :=
  if b = 34 then [92, 34]
  else if b = 92 then [92, 92]
  else if b = 123 then [92, 123]
  else if b = 125 then [92, 125]
  else if b = 10 then [92, 110]
  else if b = 13 then [92, 114]
  else if b = 9 then [92, 116]
  else if b < 32 then [92, 120, hexDigit (b / 16), hexDigit (b % 16)]
  else [b]

/-- Concatenation of a per-byte escape over a string. -/
def escConcat (f : Nat → List Nat) : List Nat → List Nat
  | [] => []
  | b :: t => f b ++ escConcat f t

/-- Modelled from Go's standard library `strconv.Quote`, byte by byte:
quote and backslash are escaped, printable ASCII is emitted literally,
the named control escapes are used for bytes 7-13, and everything else
becomes a lowercase `\xHH` escape.  This is exact for inputs of bytes
below 0x7F; for larger bytes Go inspects UTF-8 runes and may emit a
printable rune literally, which is not modelled (the theorems below apply
`quoteArg` only to ASCII arguments). -/
def strconvEscByte (b : Nat) : List Nat :=
  if b = 34 then [92, 34]
  else if b = 92 then [92, 92]
  else if 32 ≤ b ∧ b < 127 then [b]
  else if b = 7 then [92, 97]
  else if b = 8 then [92, 98]
  else if b = 12 then [92, 102]
  else if b = 10 then [92, 110]
  else if b = 13 then [92, 114]
  else if b = 9 then [92, 116]
  else if b = 11 then [92, 118]
  else [92, 120, hexDigit (b / 16), hexDigit (b % 16)]

/-- The `strconv.Quote` call in `quoteArg` (see `strconvEscByte`). -/
def strconvQuote (a : List Nat) : List Nat := 34 :: escConcat strconvEscByte a ++ [34]

/-- `quoteArg` from parser.go: manual quoting with brace escaping when the
argument contains a brace, Go's standard quoting otherwise. -/
def quoteArg (a : List Nat) : List Nat :=
  if a.any (fun b => b == 123 || b == 125) then 34 :: escConcat quoteArgEscByte a ++ [34]
  else strconvQuote a

/-- The per-argument branch of `FormatIndent`'s loop: a bareword-eligible
argument is emitted verbatim, any other is quoted. -/
def formatArg (arg : List Nat) : List Nat :=
  if isBarewordString arg then arg else quoteArg arg

/-- `FormatIndent` from parser.go: emit each argument as a bareword or
quoted, join with single spaces, and append the brace-wrapped body (each
line prefixed with `indent` when that is non-empty) when the body is
non-empty. -/
def FormatIndent (args : List (List Nat)) (body : List Nat) (indent : List Nat) : List Nat :=
  let parts := args.map formatArg
  let result := List.intercalate [32] parts
  if body ≠ [] then
    result ++ [32, 123, 10] ++
      (if indent ≠ [] then
        (body.splitOn 10).foldl (fun acc line => acc ++ indent ++ line ++ [10]) []
      else body ++ [10]) ++ [125]
  else result

/-- `Format` from parser.go: `FormatIndent` with an empty indent. -/
def Format (args : List (List Nat)) (body : List Nat) : List Nat :=
  FormatIndent args body []

/-! ### Generic facts about the cursor and slices -/

theorem drop_pos_lt {l : List Nat} {p b : Nat} {r : List Nat}
    (h : l.drop p = b :: r) : p < l.length := by
  by_contra hn
  rw [List.drop_eq_nil_of_le (by omega)] at h
  exact absurd h (by simp)

theorem drop_succ_of_drop {l : List Nat} {p b : Nat} {r : List Nat}
    (h : l.drop p = b :: r) : l.drop (p + 1) = r := by
  have h1 : l.drop (p + 1) = (l.drop p).drop 1 := by rw [List.drop_drop]
  rw [h1, h]
  rfl

theorem getElem_of_drop {l : List Nat} {p b : Nat} {r : List Nat}
    (h : l.drop p = b :: r) (hp : p < l.length) : l[p] = b := by
  have h0 : (l.drop p)[0]? = l[p + 0]? := List.getElem?_drop l p 0
  rw [h] at h0
  simp only [List.getElem?_cons_zero, Nat.add_zero] at h0
  rw [List.getElem?_eq_getElem hp] at h0
  exact (Option.some.injEq ..).mp h0.symm

theorem subSlice_empty (l : List Nat) (i : Nat) : subSlice l i i = [] := by
  simp [subSlice]

theorem subSlice_extend {l : List Nat} {i p b : Nat} {r : List Nat}
    (hip : i ≤ p) (h : l.drop p = b :: r) :
    subSlice l i (p + 1) = subSlice l i p ++ [b] := by
  unfold subSlice
  have hlt : p < l.length := drop_pos_lt h
  have hstep : p + 1 - i = (p - i) + 1 := by omega
  rw [hstep, List.take_succ]
  congr 1
  have h0 : (l.drop i)[p - i]? = l[i + (p - i)]? := List.getElem?_drop l i (p - i)
  have hip2 : i + (p - i) = p := by omega
  rw [hip2] at h0
  rw [h0, List.getElem?_eq_getElem hlt, getElem_of_drop h hlt]
  rfl

theorem subSlice_at_eof {l : List Nat} {i p : Nat}
    (hp : l.length ≤ p) : subSlice l i l.length = subSlice l i p := by
  unfold subSlice
  have h1 : (l.drop i).length = l.length - i := List.length_drop i l
  rw [List.take_of_length_le (by omega), List.take_of_length_le (by omega)]

theorem subSlice_of_drop {l : List Nat} {i : Nat} {u v : List Nat}
    (h : l.drop i = u ++ v) : subSlice l i (i + u.length) = u := by
  unfold subSlice
  have h1 : i + u.length - i = u.length := by omega
  rw [h1, h, List.take_left]

theorem drop_of_drop_append {l : List Nat} {p : Nat} {u v : List Nat}
    (h : l.drop p = u ++ v) : l.drop (p + u.length) = v := by
  have h1 : l.drop (p + u.length) = (l.drop p).drop u.length := by
    rw [List.drop_drop, Nat.add_comm]
  rw [h1, h, List.drop_left]

/-! ### C8: position inheritance of a re-rooted child scanner -/

/-- C8: a child scanner built by `NewFromScanner` starts at column 1, on
the parent's current line, with the parent's current absolute offset both
as its reported offset and as its base offset (the zero-bias of every
position it later reports). -/
theorem childScannerInheritsPosition (parent : Scanner) (input : List Nat) :
    (NewFromScanner parent input).currentPos =
      ⟨parent.currentPos.line, 1, parent.currentPos.offset⟩ ∧
    (NewFromScanner parent input).baseOffset = parent.currentPos.offset := by
  exact ⟨rfl, rfl⟩

/-! ### C10: the end-of-input signal is stable -/

/-- C10: once the cursor has reached the end of the buffer, `Next` returns
the end-of-input signal — not a `ScanError` — with no arguments and no
body, and leaves the scanner unchanged, so every later call returns the
same. -/
theorem nextEofStable (sc : Scanner) (h : sc.s.length ≤ sc.pos) :
    sc.Next = (sc, [], [], some NextErr.eof) := by
  rw [Scanner.Next, Scanner.NextLoop, dif_neg (by omega), if_pos rfl]

/-- Witness for C10 at the empty input. -/
theorem nextEofStable_witness :
    (NewScanner []).s.length ≤ (NewScanner []).pos ∧
      (NewScanner []).Next = (NewScanner [], [], [], some NextErr.eof) :=
  ⟨by decide, nextEofStable (NewScanner []) (by decide)⟩

/-! ### C7: exact error position of an unterminated single quote -/

/-- C7: parsing the 9-byte input `'unclosed` fails with the unterminated
single-quote condition, and the error carries line 1, column 10, offset 9. -/
theorem unterminatedQuoteErrorPosition :
    (NewScanner [39, 117, 110, 99, 108, 111, 115, 101, 100]).Next.2 =
      ([], [], some (NextErr.scan ⟨⟨1, 10, 9⟩, "got EOF in single quote"⟩)) := by
  simp [Scanner.Next, Scanner.NextLoop, Scanner.parseBareword, Scanner.parseBarewordLoop,
    Scanner.parseQuote1, Scanner.parseQuote1Loop, Scanner.advance, Scanner.currentPos,
    Scanner.errorAt, NewScanner, subSlice,
    isSpace, isQuote1, isQuote2, isBareword, isLeftBrace, isNewLine, isBackQuote]

/-! ### C5: brace-block depth tracking -/

/-- C5: `cmd { a { b } c }` parses to arguments `["cmd"]` and body
`" a { b } c "` (inner unescaped braces adjust depth and are kept
literally), and `cmd { x \{ y \} z }` parses to body `" x { y } z "`
(escaped braces are decoded and do not affect depth). -/
theorem braceDepthTracking :
    (NewScanner [99, 109, 100, 32, 123, 32, 97, 32, 123, 32, 98, 32, 125, 32, 99, 32,
      125]).Next.2 = ([[99, 109, 100]], [32, 97, 32, 123, 32, 98, 32, 125, 32, 99, 32], none) ∧
    (NewScanner [99, 109, 100, 32, 123, 32, 120, 32, 92, 123, 32, 121, 32, 92, 125, 32, 122,
      32, 125]).Next.2 =
      ([[99, 109, 100]], [32, 120, 32, 123, 32, 121, 32, 125, 32, 122, 32], none) := by
  constructor <;>
    simp [Scanner.Next, Scanner.NextLoop, Scanner.parseBareword, Scanner.parseBarewordLoop,
      Scanner.parseBrace, Scanner.parseBraceLoop, Scanner.parseBraceEscape,
      Scanner.advance, Scanner.currentPos, Scanner.errorAt, NewScanner, subSlice,
      isSpace, isQuote1, isQuote2, isBareword, isLeftBrace, isNewLine, isBackQuote,
      braceEscDecode, dedent, dedentStripLine, isBlankLine, leadingWhitespaceOf, commonPrefix2,
      List.splitOn, List.splitOnP, List.splitOnP.go, List.intercalate, List.intersperse,
      List.modifyHead]

/-! ### C3: byte classification is not total and `Next` can diverge -/

/-- C3 (the code bug): the carriage-return byte 13 falls into none of the
seven byte classes, and on the input consisting of that single byte the
`Next` loop never returns — the dispatch switch has no matching case and
the cursor never advances, modelled by the `NextErr.diverge` result. -/
theorem nextDivergesOnCarriageReturn :
    (isSpace 13 = false ∧ isQuote1 13 = false ∧ isQuote2 13 = false ∧
      isBackQuote 13 = false ∧ isLeftBrace 13 = false ∧ isNewLine 13 = false ∧
      isBareword 13 = false) ∧
    (NewScanner [13]).Next.2 = ([], [], some NextErr.diverge) := by
  constructor
  · decide
  · simp [Scanner.Next, Scanner.NextLoop, NewScanner,
      isSpace, isQuote1, isQuote2, isBareword, isLeftBrace, isNewLine, isBackQuote]

/-! ### Plain bareword runs -/

theorem byteNe_isQuote1 {a : Nat} (h : a ≠ 39) : isQuote1 a = false := by
  simp [isQuote1, h]

theorem byteNe_isQuote2 {a : Nat} (h : a ≠ 34) : isQuote2 a = false := by
  simp [isQuote2, h]

/-- A run `w` of bytes none of which is whitespace, a quote, a newline or a
backslash is consumed literally by the bareword scan loop, which stops
exactly at a following space or newline, or at end of input. -/
theorem parseBarewordLoop_plain_run (w : List Nat) :
    ∀ (sc : Scanner) (i : Nat) (out p rest : List Nat),
      (∀ b ∈ w, isSpace b = false ∧ b ≠ 39 ∧ b ≠ 34 ∧ b ≠ 10 ∧ b ≠ 92) →
      sc.s.drop sc.pos = w ++ rest →
      (rest = [] ∨ ∃ b t, rest = b :: t ∧ (isSpace b = true ∨ b = 10)) →
      i ≤ sc.pos → subSlice sc.s i sc.pos = p →
      ∃ sc2, sc.parseBarewordLoop i out = (sc2, out ++ p ++ w, none) ∧
        sc2.s = sc.s ∧ sc2.pos = sc.pos + w.length := by
  induction w with
  | nil =>
    intro sc i out p rest hw hdrop hstop hip hsl
    rw [List.nil_append] at hdrop
    rcases hstop with hnil | ⟨b, t, hbt, hsb⟩
    · subst hnil
      have hlen : sc.s.length ≤ sc.pos := by
        by_contra hn
        push_neg at hn
        obtain ⟨x, hx⟩ := List.exists_cons_of_ne_nil
          (List.ne_nil_of_length_pos (by rw [List.length_drop]; omega) : sc.s.drop sc.pos ≠ [])
        obtain ⟨xs, hxs⟩ := hx
        rw [hdrop] at hxs
        exact absurd hxs (by simp)
      have hs2 : subSlice sc.s i sc.s.length = p := by rw [subSlice_at_eof hlen, hsl]
      refine ⟨sc, ?_, rfl, by simp⟩
      rw [Scanner.parseBarewordLoop, dif_neg (by omega)]
      split
      · rename_i hout
        subst hout
        rw [hs2]
        simp
      · rw [hs2]
        simp
    · subst hbt
      have hlt : sc.pos < sc.s.length := drop_pos_lt hdrop
      have hb : sc.s[sc.pos] = b := getElem_of_drop hdrop hlt
      rcases hsb with hspace | hnl10
      · refine ⟨sc, ?_, rfl, by simp⟩
        rw [Scanner.parseBarewordLoop, dif_pos hlt, hb, if_pos hspace, hsl]
        simp
      · subst hnl10
        refine ⟨sc, ?_, rfl, by simp⟩
        rw [Scanner.parseBarewordLoop, dif_pos hlt, hb]
        rw [if_neg (by decide), if_neg (by decide), if_neg (by decide), if_pos rfl, hsl]
        simp
  | cons a w' ih =>
    intro sc i out p rest hw hdrop hstop hip hsl
    have ha := hw a (by simp)
    have hlt : sc.pos < sc.s.length := drop_pos_lt hdrop
    have hb : sc.s[sc.pos] = a := getElem_of_drop hdrop hlt
    have hdrop2 : sc.s.drop (sc.pos + 1) = w' ++ rest := drop_succ_of_drop hdrop
    have hext : subSlice sc.s i (sc.pos + 1) = p ++ [a] := by
      rw [subSlice_extend hip hdrop, hsl]
    have ihx := ih sc.advance i out (p ++ [a]) rest
      (fun b hbin => hw b (by simp [hbin]))
      (by rw [Scanner.advance_s, Scanner.advance_pos]; exact hdrop2)
      hstop
      (by rw [Scanner.advance_pos]; omega)
      (by rw [Scanner.advance_s, Scanner.advance_pos]; exact hext)
    obtain ⟨sc2, hrun, hs2, hp2⟩ := ihx
    refine ⟨sc2, ?_, by rw [hs2, Scanner.advance_s], ?_⟩
    · rw [Scanner.parseBarewordLoop, dif_pos hlt, hb]
      rw [if_neg (by rw [ha.1]; exact Bool.false_ne_true),
        if_neg (by rw [byteNe_isQuote1 ha.2.1]; exact Bool.false_ne_true),
        if_neg (by rw [byteNe_isQuote2 ha.2.2.1]; exact Bool.false_ne_true),
        if_neg ha.2.2.2.1, if_neg ha.2.2.2.2]
      rw [hrun]
      simp
    · rw [hp2, Scanner.advance_pos]
      simp
      omega

/-! ### C2: what ends a bareword run -/

/-- C2 counterexample: an unescaped opening brace in the middle of a
bareword run does not end argument collection and does not start a body:
`a{b}` parses as the single argument `a{b}` with no body, not as argument
`a` with body `b`. -/
theorem braceMidRunCounterexample :
    (NewScanner [97, 123, 98, 125]).Next.2 = ([[97, 123, 98, 125]], [], none) ∧
    (NewScanner [97, 123, 98, 125]).Next.2 ≠ ([[97]], [98], none) := by
  have h : (NewScanner [97, 123, 98, 125]).Next.2 = ([[97, 123, 98, 125]], [], none) := by
    simp [Scanner.Next, Scanner.NextLoop, Scanner.parseBareword, Scanner.parseBarewordLoop,
      Scanner.advance, NewScanner, subSlice,
      isSpace, isQuote1, isQuote2, isBareword, isLeftBrace, isNewLine, isBackQuote]
  exact ⟨h, by rw [h]; decide⟩

/-- C2 (amended): a bareword run, once begun, stops only at whitespace
(space or tab), a newline, or end of input; an opening brace, backtick, or
other non-quote non-backslash byte occurring mid-run is consumed as a
literal byte of the argument.  Concretely, `a{b}` scans to the single
argument `a{b}` with no body. -/
theorem barewordRunStopsOnlyAtWhitespace :
    (∀ (w rest : List Nat) (sc : Scanner),
      w ≠ [] →
      (∀ b ∈ w, isSpace b = false ∧ b ≠ 39 ∧ b ≠ 34 ∧ b ≠ 10 ∧ b ≠ 92) →
      sc.s.drop sc.pos = w ++ rest →
      (rest = [] ∨ ∃ b t, rest = b :: t ∧ (isSpace b = true ∨ b = 10)) →
      ∃ sc2, sc.parseBareword = (sc2, w, none) ∧ sc2.s = sc.s ∧
        sc2.pos = sc.pos + w.length) ∧
    (NewScanner [97, 123, 98, 125]).parseBareword.2 = ([97, 123, 98, 125], none) := by
  constructor
  · intro w rest sc hne hw hdrop hstop
    obtain ⟨sc2, hrun, hs, hp⟩ := parseBarewordLoop_plain_run w sc sc.pos [] [] rest
      hw hdrop hstop (Nat.le_refl _) (subSlice_empty _ _)
    refine ⟨sc2, ?_, hs, hp⟩
    rw [Scanner.parseBareword, hrun]
    simp
  · simp [Scanner.parseBareword, Scanner.parseBarewordLoop, Scanner.advance, NewScanner,
      subSlice, isSpace, isQuote1, isQuote2, isBareword, isLeftBrace, isNewLine, isBackQuote]

/-! ### C9: arguments accumulated before a failure are handed back -/

theorem NextLoop_error_prefix (sc : Scanner) (acc : List (List Nat)) :
    ∀ (sc2 : Scanner) (args : List (List Nat)) (body : List Nat) (e : ScanError),
      sc.NextLoop acc = (sc2, args, body, some (NextErr.scan e)) → acc <+: args := by
  induction sc, acc using Scanner.NextLoop.induct with
  | case1 sc acc h hsp ih =>
    intro sc2 args body e heq
    rw [Scanner.NextLoop, dif_pos h, if_pos hsp] at heq
    exact ih sc2 args body e heq
  | case2 sc acc h hsp hg hq ih =>
    intro sc2 args body e heq
    rw [Scanner.NextLoop, dif_pos h, if_neg hsp, if_pos hg, dif_pos hq] at heq
    exact (List.prefix_append acc [sc.parseBareword.2.1]).trans (ih sc2 args body e heq)
  | case3 sc acc h hsp hg hq =>
    intro sc2 args body e heq
    rw [Scanner.NextLoop, dif_pos h, if_neg hsp, if_pos hg, dif_neg hq] at heq
    simp only [Prod.mk.injEq] at heq
    exact heq.2.1 ▸ List.prefix_refl acc
  | case4 sc acc h hsp hg hbq hq ih =>
    intro sc2 args body e heq
    rw [Scanner.NextLoop, dif_pos h, if_neg hsp, if_neg hg, if_pos hbq, dif_pos hq] at heq
    exact (List.prefix_append acc [sc.parseBackQuote.2.1]).trans (ih sc2 args body e heq)
  | case5 sc acc h hsp hg hbq hq =>
    intro sc2 args body e heq
    rw [Scanner.NextLoop, dif_pos h, if_neg hsp, if_neg hg, if_pos hbq, dif_neg hq] at heq
    simp only [Prod.mk.injEq] at heq
    exact heq.2.1 ▸ List.prefix_refl acc
  | case6 sc acc h hsp hg hbq hbr =>
    intro sc2 args body e heq
    rw [Scanner.NextLoop, dif_pos h, if_neg hsp, if_neg hg, if_neg hbq, if_pos hbr] at heq
    simp only [Prod.mk.injEq] at heq
    exact heq.2.1 ▸ List.prefix_refl acc
  | case7 sc acc h hsp hg hbq hbr hnl hlen =>
    intro sc2 args body e heq
    rw [Scanner.NextLoop, dif_pos h, if_neg hsp, if_neg hg, if_neg hbq, if_neg hbr,
      if_pos hnl, if_pos hlen] at heq
    simp at heq
  | case8 sc acc h hsp hg hbq hbr hnl hlen ih =>
    intro sc2 args body e heq
    rw [Scanner.NextLoop, dif_pos h, if_neg hsp, if_neg hg, if_neg hbq, if_neg hbr,
      if_pos hnl, if_neg hlen] at heq
    exact ih sc2 args body e heq
  | case9 sc acc h hsp hg hbq hbr hnl =>
    intro sc2 args body e heq
    rw [Scanner.NextLoop, dif_pos h, if_neg hsp, if_neg hg, if_neg hbq, if_neg hbr,
      if_neg hnl] at heq
    simp at heq
  | case10 sc h =>
    intro sc2 args body e heq
    rw [Scanner.NextLoop, dif_neg h, if_pos rfl] at heq
    simp at heq
  | case11 sc acc h hacc =>
    intro sc2 args body e heq
    rw [Scanner.NextLoop, dif_neg h, if_neg hacc] at heq
    simp at heq

/-- C9: when a sub-parser fails during a scan step, `Next` returns the
error together with the arguments already accumulated for the current
command: the accumulated list is a prefix of the returned one (nothing is
discarded).  Concretely, on `a b 'x` the two already-parsed arguments come
back with the unterminated-quote error. -/
theorem nextReturnsAccumulatedArgsOnError :
    (∀ (sc : Scanner) (acc : List (List Nat)) (sc2 : Scanner) (args : List (List Nat))
      (body : List Nat) (e : ScanError),
      sc.NextLoop acc = (sc2, args, body, some (NextErr.scan e)) → acc <+: args) ∧
    (NewScanner [97, 32, 98, 32, 39, 120]).Next.2 =
      ([[97], [98]], [], some (NextErr.scan ⟨⟨1, 7, 6⟩, "got EOF in single quote"⟩)) := by
  constructor
  · exact fun sc acc => NextLoop_error_prefix sc acc
  · simp [Scanner.Next, Scanner.NextLoop, Scanner.parseBareword, Scanner.parseBarewordLoop,
      Scanner.parseQuote1, Scanner.parseQuote1Loop, Scanner.advance, Scanner.currentPos,
      Scanner.errorAt, NewScanner, subSlice,
      isSpace, isQuote1, isQuote2, isBareword, isLeftBrace, isNewLine, isBackQuote]

/-! ### C4: absent body versus empty body -/

/-- C4 counterexample: at the public interface an explicit `{}` is not
distinguishable from no body — `cmd {}` and `cmd` return identical
(arguments, body, error) triples — and `Format` with an empty body appends
no brace block at all: `Format ["cmd"] ""` is just `cmd`, not
`cmd {\n\n}`. -/
theorem emptyBodyFormatCounterexample :
    (NewScanner [99, 109, 100, 32, 123, 125]).Next.2 = (NewScanner [99, 109, 100]).Next.2 ∧
    Format [[99, 109, 100]] [] = [99, 109, 100] ∧
    Format [[99, 109, 100]] [] ≠ [99, 109, 100, 32, 123, 10, 10, 125] := by
  refine ⟨?_, ?_, ?_⟩
  · simp [Scanner.Next, Scanner.NextLoop, Scanner.parseBareword, Scanner.parseBarewordLoop,
      Scanner.parseBrace, Scanner.parseBraceLoop, Scanner.advance, NewScanner, subSlice,
      isSpace, isQuote1, isQuote2, isBareword, isLeftBrace, isNewLine, isBackQuote,
      dedent, dedentStripLine]
  · simp [Format, FormatIndent, formatArg, isBarewordString, isBareword, isSpace, isQuote1,
      isQuote2, isLeftBrace, isBackQuote, List.intercalate, List.intersperse]
  · simp [Format, FormatIndent, formatArg, isBarewordString, isBareword, isSpace, isQuote1,
      isQuote2, isLeftBrace, isBackQuote, List.intercalate, List.intersperse]

/-- C4 (amended): the public interface carries a body as a plain string
with no present/absent distinction: parsing an explicit `{}` yields the
empty body string, exactly as a command with no brace block does, and
`Format` appends the ` {` newline body newline `}` block exactly when the
body string is non-empty. -/
theorem emptyBodyIndistinguishable :
    (NewScanner [99, 109, 100, 32, 123, 125]).Next.2 = ([[99, 109, 100]], [], none) ∧
    (NewScanner [99, 109, 100]).Next.2 = ([[99, 109, 100]], [], none) ∧
    Format [[99, 109, 100]] [] = [99, 109, 100] ∧
    (∀ (args : List (List Nat)) (body : List Nat), body ≠ [] →
      Format args body = Format args [] ++ [32, 123, 10] ++ body ++ [10, 125]) := by
  refine ⟨?_, ?_, ?_, ?_⟩
  · simp [Scanner.Next, Scanner.NextLoop, Scanner.parseBareword, Scanner.parseBarewordLoop,
      Scanner.parseBrace, Scanner.parseBraceLoop, Scanner.advance, NewScanner, subSlice,
      isSpace, isQuote1, isQuote2, isBareword, isLeftBrace, isNewLine, isBackQuote,
      dedent, dedentStripLine]
  · simp [Scanner.Next, Scanner.NextLoop, Scanner.parseBareword, Scanner.parseBarewordLoop,
      Scanner.advance, NewScanner, subSlice,
      isSpace, isQuote1, isQuote2, isBareword, isLeftBrace, isNewLine, isBackQuote]
  · simp [Format, FormatIndent, formatArg, isBarewordString, isBareword, isSpace, isQuote1,
      isQuote2, isLeftBrace, isBackQuote, List.intercalate, List.intersperse]
  · intro args body hb
    simp only [Format, FormatIndent, if_pos hb]
    simp [hb]

/-! ### C6: dedent is idempotent — longest-common-prefix facts -/

theorem commonPrefix2_prefix_left (a : List Nat) : ∀ b, commonPrefix2 a b <+: a := by
  induction a with
  | nil => intro b; cases b <;> simp [commonPrefix2]
  | cons x xs ih =>
    intro b
    cases b with
    | nil => simp [commonPrefix2]
    | cons y ys =>
      rw [commonPrefix2]
      split
      · obtain ⟨t, ht⟩ := ih ys
        exact ⟨t, by rw [List.cons_append, ht]⟩
      · exact List.nil_prefix

theorem commonPrefix2_prefix_right (a : List Nat) : ∀ b, commonPrefix2 a b <+: b := by
  induction a with
  | nil => intro b; cases b <;> simp [commonPrefix2]
  | cons x xs ih =>
    intro b
    cases b with
    | nil => simp [commonPrefix2]
    | cons y ys =>
      rw [commonPrefix2]
      split
      · rename_i hxy
        obtain ⟨t, ht⟩ := ih ys
        exact ⟨t, by rw [hxy, List.cons_append, ht]⟩
      · exact List.nil_prefix

theorem commonPrefix2_longest (c : List Nat) :
    ∀ a b, c <+: a → c <+: b → c <+: commonPrefix2 a b := by
  induction c with
  | nil => intro a b _ _; exact List.nil_prefix
  | cons z zs ih =>
    intro a b hca hcb
    obtain ⟨t, ht⟩ := hca
    obtain ⟨u, hu⟩ := hcb
    subst ht
    subst hu
    rw [List.cons_append, List.cons_append, commonPrefix2, if_pos rfl]
    obtain ⟨v, hv⟩ := ih (zs ++ t) (zs ++ u) ⟨t, rfl⟩ ⟨u, rfl⟩
    exact ⟨v, by rw [List.cons_append, hv]⟩

theorem foldl_commonPrefix2_head (rest : List (List Nat)) :
    ∀ w, rest.foldl commonPrefix2 w <+: w := by
  induction rest with
  | nil => intro w; exact List.prefix_refl w
  | cons r rest2 ih =>
    intro w
    exact (ih (commonPrefix2 w r)).trans (commonPrefix2_prefix_left w r)

theorem foldl_commonPrefix2_mem (rest : List (List Nat)) :
    ∀ w v, v ∈ rest → rest.foldl commonPrefix2 w <+: v := by
  induction rest with
  | nil => intro w v hv; simp at hv
  | cons r rest2 ih =>
    intro w v hv
    rcases List.mem_cons.mp hv with h | h
    · subst h
      exact (foldl_commonPrefix2_head rest2 (commonPrefix2 w v)).trans
        (commonPrefix2_prefix_right w v)
    · exact ih (commonPrefix2 w r) v h

theorem foldl_commonPrefix2_longest (rest : List (List Nat)) :
    ∀ w c, c <+: w → (∀ v ∈ rest, c <+: v) → c <+: rest.foldl commonPrefix2 w := by
  induction rest with
  | nil => intro w c hcw _; exact hcw
  | cons r rest2 ih =>
    intro w c hcw hcv
    exact ih (commonPrefix2 w r) c
      (commonPrefix2_longest c w r hcw (hcv r (by simp)))
      (fun v hv => hcv v (by simp [hv]))

theorem splitOnP_pieces_false (p : Nat → Bool) (xs : List Nat) :
    ∀ l ∈ xs.splitOnP p, ∀ a ∈ l, p a = false := by
  induction xs with
  | nil =>
    intro l hl a ha
    rw [List.splitOnP_nil] at hl
    rcases List.mem_cons.mp hl with h | h
    · subst h; simp at ha
    · simp at h
  | cons x xs ih =>
    intro l hl a ha
    rw [List.splitOnP_cons] at hl
    by_cases hx : p x = true
    · rw [if_pos hx] at hl
      rcases List.mem_cons.mp hl with h | h
      · subst h; simp at ha
      · exact ih l h a ha
    · rw [if_neg hx] at hl
      obtain ⟨hd, tl, hht⟩ := List.exists_cons_of_ne_nil (List.splitOnP_ne_nil p xs)
      rw [hht, List.modifyHead_cons] at hl
      rcases List.mem_cons.mp hl with h | h
      · subst h
        rcases List.mem_cons.mp ha with h2 | h2
        · subst h2
          simpa using hx
        · exact ih hd (by rw [hht]; simp) a h2
      · exact ih l (by rw [hht]; simp [h]) a ha

theorem splitOn_sep_not_mem (xs : List Nat) : ∀ l ∈ xs.splitOn 10, (10 : Nat) ∉ l := by
  intro l hl hmem
  rw [List.splitOn] at hl
  have hfalse := splitOnP_pieces_false (fun b => b == 10) xs l hl 10 hmem
  simp at hfalse

theorem takeWhile_drop_of_prefix (q : Nat → Bool) (P : List Nat) :
    ∀ l : List Nat, P <+: l.takeWhile q →
      (l.drop P.length).takeWhile q = (l.takeWhile q).drop P.length := by
  induction P with
  | nil => intro l _; simp
  | cons c P2 ih =>
    intro l hpre
    cases l with
    | nil => simp at hpre
    | cons x l2 =>
      rw [List.takeWhile_cons] at hpre
      by_cases hq : q x = true
      · rw [if_pos hq] at hpre
        obtain ⟨t, ht⟩ := hpre
        rw [List.cons_append] at ht
        have h1 : c = x := (List.cons.injEq ..).mp ht |>.1
        have h2 : P2 ++ t = l2.takeWhile q := (List.cons.injEq ..).mp ht |>.2
        simp only [List.length_cons, List.drop_succ_cons,
          List.takeWhile_cons, if_pos hq]
        exact ih l2 ⟨t, h2⟩
      · rw [if_neg hq] at hpre
        obtain ⟨t, ht⟩ := hpre
        exact absurd ht (by simp)

theorem filter_map_pres (f : List Nat → List Nat) (p : List Nat → Bool) :
    ∀ xs : List (List Nat), (∀ x ∈ xs, p (f x) = p x) →
      (xs.map f).filter p = (xs.filter p).map f := by
  intro xs
  induction xs with
  | nil => intro _; rfl
  | cons x xs ih =>
    intro hp
    simp only [List.map_cons, List.filter_cons]
    rw [hp x (by simp)]
    by_cases hx : p x = true
    · rw [if_pos hx, if_pos hx, List.map_cons, ih (fun y hy => hp y (by simp [hy]))]
    · rw [if_neg hx, if_neg hx, ih (fun y hy => hp y (by simp [hy]))]

theorem dedent_result (s : List Nat) :
    dedent s = s ∨
    ∃ w rest,
      ((s.splitOn 10).filter (fun line => !isBlankLine line)).map leadingWhitespaceOf
        = w :: rest ∧
      1 < (s.splitOn 10).length ∧
      rest.foldl commonPrefix2 w ≠ [] ∧
      dedent s = List.intercalate [10]
        ((s.splitOn 10).map (dedentStripLine (rest.foldl commonPrefix2 w))) := by
  simp only [dedent]
  split
  · exact Or.inl rfl
  · split
    · exact Or.inl rfl
    · rename_i hlen
      split
      · exact Or.inl rfl
      · rename_i w rest heq
        split
        · exact Or.inl rfl
        · rename_i hP
          exact Or.inr ⟨w, rest, heq, by omega, hP, rfl⟩

theorem dedent_eq_self (s : List Nat) (w2 : List Nat) (rest2 : List (List Nat))
    (hws : ((s.splitOn 10).filter (fun line => !isBlankLine line)).map leadingWhitespaceOf
      = w2 :: rest2)
    (hP : rest2.foldl commonPrefix2 w2 = []) : dedent s = s := by
  simp only [dedent]
  split
  · rfl
  · split
    · rfl
    · split
      · rfl
      · rename_i w3 rest3 heq
        rw [hws] at heq
        have hw : w2 = w3 := ((List.cons.injEq ..).mp heq).1
        have hr : rest2 = rest3 := ((List.cons.injEq ..).mp heq).2
        rw [← hw, ← hr, if_pos hP]

theorem isBlankLine_drop_false (P l : List Nat) (hbl : isBlankLine l = false)
    (hple : P <+: l) (hPb : ∀ b ∈ P, (b == 32 || b == 9) = true) :
    isBlankLine (l.drop P.length) = false := by
  unfold isBlankLine at hbl ⊢
  rcases List.all_eq_false.mp hbl with ⟨b, hbmem, hbnp⟩
  apply List.all_eq_false.mpr
  refine ⟨b, ?_, hbnp⟩
  have hsplitl : l.take P.length ++ l.drop P.length = l := List.take_append_drop _ _
  have htake : l.take P.length = P := (List.prefix_iff_eq_take.mp hple).symm
  have hbm2 : b ∈ l.take P.length ++ l.drop P.length := by rw [hsplitl]; exact hbmem
  rcases List.mem_append.mp hbm2 with h | h
  · rw [htake] at h
    have hb32 := hPb b h
    have hb' : b = 32 ∨ b = 9 := by simpa using hb32
    exfalso
    apply hbnp
    rcases hb' with h32 | h9
    · subst h32; decide
    · subst h9; decide
  · exact h

/-- C6: `dedent` is idempotent: after one pass the stripped leading runs
have no non-empty common prefix left, so a second pass returns its input
unchanged. -/
theorem dedentIdempotent (s : List Nat) : dedent (dedent s) = dedent s := by
  rcases dedent_result s with h | ⟨w, rest, hws, hlen, hP0, hds⟩
  · rw [h]
    exact h
  · set P := rest.foldl commonPrefix2 w with hPdef
    have hPw : P <+: w := foldl_commonPrefix2_head rest w
    have hPmem : ∀ v ∈ w :: rest, P <+: v := by
      intro v hv
      rcases List.mem_cons.mp hv with h | h
      · subst h; exact hPw
      · exact foldl_commonPrefix2_mem rest w v h
    have hPbytes : ∀ b ∈ P, (b == 32 || b == 9) = true := by
      cases hf : (s.splitOn 10).filter (fun line => !isBlankLine line) with
      | nil => rw [hf] at hws; simp at hws
      | cons l0 ltl =>
        rw [hf] at hws
        simp only [List.map_cons, List.cons.injEq] at hws
        intro b hb
        have hbw : b ∈ w := hPw.sublist.subset hb
        rw [← hws.1] at hbw
        simp only [leadingWhitespaceOf] at hbw
        exact List.mem_takeWhile_imp (p := fun b => b == 32 || b == 9) hbw
    have key : ∀ l ∈ s.splitOn 10, isBlankLine l = false →
        P <+: leadingWhitespaceOf l := by
      intro l hl hbl
      have hmem : leadingWhitespaceOf l ∈
          ((s.splitOn 10).filter (fun line => !isBlankLine line)).map leadingWhitespaceOf :=
        List.mem_map_of_mem _ (List.mem_filter.mpr ⟨hl, by simp [hbl]⟩)
      rw [hws] at hmem
      exact hPmem _ hmem
    have hstrip : ∀ l ∈ s.splitOn 10, isBlankLine l = false →
        dedentStripLine P l = l.drop P.length := by
      intro l hl hbl
      have hple : P <+: l := (key l hl hbl).trans (List.takeWhile_prefix _)
      rw [dedentStripLine, if_neg (by rw [hbl]; exact Bool.false_ne_true), if_pos ?cond]
      case cond =>
        simp only [Bool.and_eq_true, decide_eq_true_eq, beq_iff_eq]
        exact ⟨hple.length_le, (List.prefix_iff_eq_take.mp hple).symm⟩
    have hblank2 : ∀ l ∈ s.splitOn 10,
        isBlankLine (dedentStripLine P l) = isBlankLine l := by
      intro l hl
      by_cases hbl : isBlankLine l = true
      · rw [dedentStripLine, if_pos hbl]
      · have hbl2 : isBlankLine l = false := Bool.eq_false_iff.mpr hbl
        rw [hstrip l hl hbl2, hbl2]
        exact isBlankLine_drop_false P l hbl2
          ((key l hl hbl2).trans (List.takeWhile_prefix _)) hPbytes
    have h10 : ∀ l2 ∈ (s.splitOn 10).map (dedentStripLine P), (10 : Nat) ∉ l2 := by
      intro l2 hl2 hmem
      obtain ⟨l, hl, hfl⟩ := List.mem_map.mp hl2
      have h10l : (10 : Nat) ∉ l := splitOn_sep_not_mem s l hl
      apply h10l
      rw [← hfl] at hmem
      rw [dedentStripLine] at hmem
      split at hmem
      · exact hmem
      · split at hmem
        · exact (List.drop_sublist _ _).subset hmem
        · exact hmem
    have hlen2 : ((s.splitOn 10).map (dedentStripLine P)).length = (s.splitOn 10).length :=
      List.length_map ..
    have hne2 : (s.splitOn 10).map (dedentStripLine P) ≠ [] := by
      intro hnil
      rw [hnil] at hlen2
      simp only [List.length_nil] at hlen2
      omega
    have hsplit2 : (dedent s).splitOn 10 = (s.splitOn 10).map (dedentStripLine P) := by
      rw [hds]
      exact List.splitOn_intercalate _ 10 h10 hne2
    have hfilter2 : ((s.splitOn 10).map (dedentStripLine P)).filter
          (fun line => !isBlankLine line)
        = ((s.splitOn 10).filter (fun line => !isBlankLine line)).map (dedentStripLine P) :=
      filter_map_pres _ _ _ (fun l hl => by simp [hblank2 l hl])
    have hws2 : (((dedent s).splitOn 10).filter (fun line => !isBlankLine line)).map
        leadingWhitespaceOf
        = w.drop P.length :: rest.map (fun v => v.drop P.length) := by
      rw [hsplit2, hfilter2, List.map_map]
      have hmapeq : ((s.splitOn 10).filter (fun line => !isBlankLine line)).map
          (leadingWhitespaceOf ∘ dedentStripLine P)
          = ((s.splitOn 10).filter (fun line => !isBlankLine line)).map
            ((fun v : List Nat => v.drop P.length) ∘ leadingWhitespaceOf) := by
        apply List.map_congr_left
        intro l hl
        have hl2 := List.mem_filter.mp hl
        have hbl : isBlankLine l = false := by
          have hx := hl2.2
          simp only [Bool.not_eq_eq_eq_not, Bool.not_true] at hx
          simpa using hx
        show leadingWhitespaceOf (dedentStripLine P l) = (leadingWhitespaceOf l).drop P.length
        rw [hstrip l hl2.1 hbl]
        simp only [leadingWhitespaceOf]
        exact takeWhile_drop_of_prefix _ P l (key l hl2.1 hbl)
      rw [hmapeq, ← List.map_map, hws, List.map_cons]
    have hP2 : (rest.map (fun v => v.drop P.length)).foldl commonPrefix2 (w.drop P.length)
        = [] := by
      by_contra hne
      set P2 := (rest.map (fun v => v.drop P.length)).foldl commonPrefix2 (w.drop P.length)
        with hP2def
      have hh : P2 <+: w.drop P.length := foldl_commonPrefix2_head _ _
      have hm : ∀ v ∈ rest, P2 <+: v.drop P.length := fun v hv =>
        foldl_commonPrefix2_mem _ _ _ (List.mem_map_of_mem _ hv)
      have hlift : ∀ v ∈ w :: rest, P ++ P2 <+: v := by
        intro v hv
        have hPv : P <+: v := hPmem v hv
        have hP2v : P2 <+: v.drop P.length := by
          rcases List.mem_cons.mp hv with h | h
          · subst h; exact hh
          · exact hm v h
        obtain ⟨t, ht⟩ := hP2v
        refine ⟨t, ?_⟩
        have hvtake : v.take P.length = P := (List.prefix_iff_eq_take.mp hPv).symm
        calc P ++ P2 ++ t = P ++ (P2 ++ t) := by rw [List.append_assoc]
          _ = P ++ v.drop P.length := by rw [ht]
          _ = v.take P.length ++ v.drop P.length := by rw [hvtake]
          _ = v := List.take_append_drop _ _
      have hlong : P ++ P2 <+: P :=
        foldl_commonPrefix2_longest rest w (P ++ P2) (hlift w (by simp))
          (fun v hv => hlift v (by simp [hv]))
      have hll := hlong.length_le
      rw [List.length_append] at hll
      have hP2len : P2.length = 0 := by omega
      exact hne (List.eq_nil_of_length_eq_zero hP2len)
    exact dedent_eq_self (dedent s) (w.drop P.length) (rest.map (fun v => v.drop P.length))
      hws2 hP2

/-! ### C1: the formatter/parser round trip -/

/-- C1 counterexample: `Format` on arguments `["cmd"]` and the indented body
`"  x"` emits `cmd {\n  x\n}`, but parsing that text runs the body through
`dedent`, which strips the two-space indent: the parsed body is `"\nx\n"`,
not `"\n" ++ "  x" ++ "\n"` as the claim states. -/
theorem roundTripDedentCounterexample :
    (NewScanner (Format [[99, 109, 100]] [32, 32, 120])).Next.2 =
      ([[99, 109, 100]], [10, 120, 10], none) ∧
    [10, 120, 10] ≠ [10] ++ [32, 32, 120] ++ [10] := by
  constructor
  · simp [Format, FormatIndent, formatArg, isBarewordString, quoteArg,
      Scanner.Next, Scanner.NextLoop, Scanner.parseBareword, Scanner.parseBarewordLoop,
      Scanner.parseBrace, Scanner.parseBraceLoop, Scanner.parseBraceEscape, Scanner.advance,
      NewScanner, subSlice, isSpace, isQuote1, isQuote2, isBareword, isLeftBrace, isNewLine,
      isBackQuote, braceEscDecode, dedent, dedentStripLine, isBlankLine, leadingWhitespaceOf,
      commonPrefix2, List.splitOn, List.splitOnP, List.splitOnP.go, List.intercalate,
      List.intersperse, List.modifyHead]
  · decide

/-- A per-byte quoting scheme emits byte `b` either literally (and then `b`
is neither a double quote nor a backslash) or as a two-byte backslash escape
that `escDecode` folds back to `b`. -/
def chunkOK (f : Nat → List Nat) (b : Nat) : Prop :=
  (f b = [b] ∧ b ≠ 34 ∧ b ≠ 92) ∨ (∃ x, f b = [92, x] ∧ escDecode x = [b])

theorem parseBackslashEscape_of_drop {sc : Scanner} {x : Nat} {r : List Nat}
    (h : sc.s.drop sc.pos = 92 :: x :: r) :
    sc.parseBackslashEscape.2.2 = none ∧ sc.parseBackslashEscape.2.1 = escDecode x ∧
      sc.parseBackslashEscape.1.s = sc.s ∧ sc.parseBackslashEscape.1.pos = sc.pos + 2 := by
  have hlt : sc.pos < sc.s.length := drop_pos_lt h
  have hd1 : sc.s.drop (sc.pos + 1) = x :: r := drop_succ_of_drop h
  have hlt1 : sc.pos + 1 < sc.s.length := drop_pos_lt hd1
  have hda : sc.advance.s.drop sc.advance.pos = x :: r := by
    rw [Scanner.advance_s, Scanner.advance_pos]; exact hd1
  have hlta : sc.advance.pos < sc.advance.s.length := by
    rw [Scanner.advance_s, Scanner.advance_pos]; exact hlt1
  have hx : sc.advance.s[sc.advance.pos] = x := getElem_of_drop hda hlta
  unfold Scanner.parseBackslashEscape
  rw [if_neg (by omega), dif_pos hlta]
  refine ⟨rfl, ?_, ?_, ?_⟩
  · show escDecode (sc.advance.s[sc.advance.pos]) = escDecode x
    rw [hx]
  · show sc.advance.advance.s = sc.s
    rw [Scanner.advance_s, Scanner.advance_s]
  · show sc.advance.advance.pos = sc.pos + 2
    rw [Scanner.advance_pos, Scanner.advance_pos]

theorem chunkOK_strconv {b : Nat} (hb : b = 9 ∨ b = 10 ∨ b = 13 ∨ (32 ≤ b ∧ b < 127)) :
    chunkOK strconvEscByte b := by
  rcases hb with h | h | h | ⟨hlo, hhi⟩
  · subst h; exact Or.inr ⟨116, by decide, by decide⟩
  · subst h; exact Or.inr ⟨110, by decide, by decide⟩
  · subst h; exact Or.inr ⟨114, by decide, by decide⟩
  · by_cases h34 : b = 34
    · subst h34; exact Or.inr ⟨34, by decide, by decide⟩
    · by_cases h92 : b = 92
      · subst h92; exact Or.inr ⟨92, by decide, by decide⟩
      · refine Or.inl ⟨?_, h34, h92⟩
        unfold strconvEscByte
        rw [if_neg h34, if_neg h92, if_pos ⟨hlo, hhi⟩]

theorem chunkOK_manual {b : Nat} (hb : b = 9 ∨ b = 10 ∨ b = 13 ∨ (32 ≤ b ∧ b < 127)) :
    chunkOK quoteArgEscByte b := by
  rcases hb with h | h | h | ⟨hlo, hhi⟩
  · subst h; exact Or.inr ⟨116, by decide, by decide⟩
  · subst h; exact Or.inr ⟨110, by decide, by decide⟩
  · subst h; exact Or.inr ⟨114, by decide, by decide⟩
  · by_cases h34 : b = 34
    · subst h34; exact Or.inr ⟨34, by decide, by decide⟩
    · by_cases h92 : b = 92
      · subst h92; exact Or.inr ⟨92, by decide, by decide⟩
      · by_cases h123 : b = 123
        · subst h123; exact Or.inr ⟨123, by decide, by decide⟩
        · by_cases h125 : b = 125
          · subst h125; exact Or.inr ⟨125, by decide, by decide⟩
          · refine Or.inl ⟨?_, h34, h92⟩
            unfold quoteArgEscByte
            rw [if_neg h34, if_neg h92, if_neg h123, if_neg h125,
              if_neg (by omega), if_neg (by omega), if_neg (by omega), if_neg (by omega)]

/-- The double-quote scan loop decodes a chunk-encoded argument: if the
input from the cursor is the byte-wise encoding of `a` under a scheme
satisfying `chunkOK`, followed by the closing quote, the loop returns the
decoded argument and leaves the cursor right after the closing quote. -/
theorem parseQuote2Loop_encoded (f : Nat → List Nat) (a : List Nat) :
    ∀ (sc : Scanner) (i : Nat) (out p rest : List Nat),
      (∀ b ∈ a, chunkOK f b) →
      sc.s.drop sc.pos = escConcat f a ++ 34 :: rest →
      i ≤ sc.pos → subSlice sc.s i sc.pos = p →
      ∃ sc2, sc.parseQuote2Loop i out = (sc2, out ++ p ++ a, none) ∧
        sc2.s = sc.s ∧ sc2.s.drop sc2.pos = rest := by
  induction a with
  | nil =>
    intro sc i out p rest hok hdrop hip hsl
    rw [show escConcat f [] = [] from rfl, List.nil_append] at hdrop
    have hlt : sc.pos < sc.s.length := drop_pos_lt hdrop
    have hb : sc.s[sc.pos] = 34 := getElem_of_drop hdrop hlt
    refine ⟨sc.advance, ?_, Scanner.advance_s sc, ?_⟩
    · rw [Scanner.parseQuote2Loop, dif_pos hlt, hb, if_pos rfl, hsl]
      simp
    · rw [Scanner.advance_s, Scanner.advance_pos]
      exact drop_succ_of_drop hdrop
  | cons b a2 ih =>
    intro sc i out p rest hok hdrop hip hsl
    rcases hok b (List.mem_cons_self b a2) with ⟨hlit, hne34, hne92⟩ | ⟨x, hesc, hdec⟩
    · rw [show escConcat f (b :: a2) = f b ++ escConcat f a2 from rfl, hlit] at hdrop
      simp only [List.cons_append, List.nil_append, List.append_assoc] at hdrop
      have hlt : sc.pos < sc.s.length := drop_pos_lt hdrop
      have hb : sc.s[sc.pos] = b := getElem_of_drop hdrop hlt
      have hd2 : sc.s.drop (sc.pos + 1) = escConcat f a2 ++ 34 :: rest :=
        drop_succ_of_drop hdrop
      have hext : subSlice sc.s i (sc.pos + 1) = p ++ [b] := by
        rw [subSlice_extend hip hdrop, hsl]
      obtain ⟨sc2, hrun, hs2, hd3⟩ := ih sc.advance i out (p ++ [b]) rest
        (fun c hc => hok c (List.mem_cons_of_mem _ hc))
        (by rw [Scanner.advance_s, Scanner.advance_pos]; exact hd2)
        (by rw [Scanner.advance_pos]; omega)
        (by rw [Scanner.advance_s, Scanner.advance_pos]; exact hext)
      refine ⟨sc2, ?_, by rw [hs2, Scanner.advance_s], hd3⟩
      rw [Scanner.parseQuote2Loop, dif_pos hlt, hb, if_neg hne34, if_neg hne92, hrun]
      simp
    · rw [show escConcat f (b :: a2) = f b ++ escConcat f a2 from rfl, hesc] at hdrop
      simp only [List.cons_append, List.nil_append, List.append_assoc] at hdrop
      have hlt : sc.pos < sc.s.length := drop_pos_lt hdrop
      have hb : sc.s[sc.pos] = 92 := getElem_of_drop hdrop hlt
      obtain ⟨hnone, hval, hss, hpp⟩ := parseBackslashEscape_of_drop hdrop
      have hd2 : sc.s.drop (sc.pos + 2) = escConcat f a2 ++ 34 :: rest := by
        have h1 := drop_succ_of_drop hdrop
        have h2 := drop_succ_of_drop h1
        exact h2
      obtain ⟨sc2, hrun, hs2, hd3⟩ := ih sc.parseBackslashEscape.1
        sc.parseBackslashEscape.1.pos (out ++ p ++ [b]) [] rest
        (fun c hc => hok c (List.mem_cons_of_mem _ hc))
        (by rw [hss, hpp]; exact hd2)
        (Nat.le_refl _)
        (subSlice_empty _ _)
      refine ⟨sc2, ?_, by rw [hs2, hss], hd3⟩
      rw [Scanner.parseQuote2Loop, dif_pos hlt, hb, if_neg (by decide), if_pos rfl,
        dif_pos hnone, hsl, hval, hdec]
      rw [show out ++ p ++ [b] = out ++ p ++ [b] from rfl] at hrun
      rw [hrun]
      simp

/-- `parseQuote2` on a chunk-encoded quoted argument: the opening quote, the
encoding, the closing quote; the decoded argument comes back and the cursor
ends right after the closing quote. -/
theorem parseQuote2_encoded (f : Nat → List Nat) (a : List Nat) (sc : Scanner)
    (rest : List Nat) (hok : ∀ b ∈ a, chunkOK f b)
    (hdrop : sc.s.drop sc.pos = 34 :: (escConcat f a ++ 34 :: rest)) :
    ∃ sc2, sc.parseQuote2 = (sc2, a, none) ∧ sc2.s = sc.s ∧
      sc2.s.drop sc2.pos = rest := by
  have hd1 : sc.s.drop (sc.pos + 1) = escConcat f a ++ 34 :: rest := drop_succ_of_drop hdrop
  obtain ⟨sc2, hrun, hs2, hd2⟩ := parseQuote2Loop_encoded f a sc.advance sc.advance.pos [] []
    rest hok (by rw [Scanner.advance_s, Scanner.advance_pos]; exact hd1) (Nat.le_refl _)
    (subSlice_empty _ _)
  refine ⟨sc2, ?_, by rw [hs2, Scanner.advance_s], hd2⟩
  rw [Scanner.parseQuote2, hrun]
  simp

/-- A bareword token that consists of one quoted segment: the bareword loop
enters the double-quote sub-parser, splices in the decoded argument, and
stops at the following separator (or end of input). -/
theorem parseBareword_quoted (f : Nat → List Nat) (a : List Nat) (sc : Scanner)
    (rest : List Nat) (hok : ∀ b ∈ a, chunkOK f b)
    (hdrop : sc.s.drop sc.pos = 34 :: (escConcat f a ++ 34 :: rest))
    (hstop : rest = [] ∨ ∃ b t, rest = b :: t ∧ (isSpace b = true ∨ b = 10)) :
    ∃ sc2, sc.parseBareword = (sc2, a, none) ∧ sc2.s = sc.s ∧
      sc2.s.drop sc2.pos = rest := by
  have hlt : sc.pos < sc.s.length := drop_pos_lt hdrop
  have hb : sc.s[sc.pos] = 34 := getElem_of_drop hdrop hlt
  obtain ⟨scq, hq, hqs, hqd⟩ := parseQuote2_encoded f a sc rest hok hdrop
  have hqnone : sc.parseQuote2.2.2 = none := by rw [hq]
  obtain ⟨sc2, hrun, hs2, hp2⟩ := parseBarewordLoop_plain_run [] scq scq.pos a [] rest
    (by intro b hbm; exact absurd hbm (List.not_mem_nil b))
    (by rw [List.nil_append]; exact hqd) hstop (Nat.le_refl _) (subSlice_empty _ _)
  refine ⟨sc2, ?_, by rw [hs2, hqs], ?_⟩
  · rw [Scanner.parseBareword, Scanner.parseBarewordLoop, dif_pos hlt, hb,
      if_neg (by decide), if_neg (by decide), if_pos (by decide), dif_pos hqnone, hq]
    simp only [subSlice_empty, List.append_nil, List.nil_append]
    rw [hrun]
    simp
  · rw [hs2, hp2]
    simp only [List.length_nil, Nat.add_zero]
    rw [hqs]
    rw [hqs] at hqd
    exact hqd

theorem isBareword_byte_facts {b : Nat} (h : isBareword b = true) :
    isSpace b = false ∧ b ≠ 39 ∧ b ≠ 34 ∧ b ≠ 10 := by
  unfold isBareword at h
  split_ifs at h with h1 h2 h3 h4 h5 h6
  refine ⟨Bool.eq_false_iff.mpr h2, ?_, ?_, ?_⟩
  · intro he
    exact h3 (by rw [isQuote1, he]; rfl)
  · intro he
    exact h4 (by rw [isQuote2, he]; rfl)
  · intro he
    rw [he] at h1
    exact h1 (by decide)

theorem isBarewordString_bytes {a : List Nat} (h : isBarewordString a = true) :
    ∀ b ∈ a, isBareword b = true ∧ b ≠ 92 := by
  intro b hb
  rw [isBarewordString] at h
  split_ifs at h with h0
  have hall := List.all_eq_true.mp h b hb
  simp only [Bool.and_eq_true, Bool.not_eq_true', beq_eq_false_iff_ne] at hall
  exact hall

/-- `parseBareword` consumes exactly the formatted image of an argument whose
bytes are tab, newline, carriage return, or printable ASCII, and decodes it
back to the argument. -/
theorem parseBareword_formatArg (a : List Nat) (sc : Scanner) (rest : List Nat)
    (hok : ∀ b ∈ a, b = 9 ∨ b = 10 ∨ b = 13 ∨ (32 ≤ b ∧ b < 127))
    (hdrop : sc.s.drop sc.pos = formatArg a ++ rest)
    (hstop : rest = [] ∨ ∃ b t, rest = b :: t ∧ (isSpace b = true ∨ b = 10)) :
    ∃ sc2, sc.parseBareword = (sc2, a, none) ∧ sc2.s = sc.s ∧
      sc2.s.drop sc2.pos = rest := by
  rw [formatArg] at hdrop
  by_cases hbw : isBarewordString a = true
  · rw [if_pos hbw] at hdrop
    have hplain : ∀ b ∈ a, isSpace b = false ∧ b ≠ 39 ∧ b ≠ 34 ∧ b ≠ 10 ∧ b ≠ 92 := by
      intro b hb
      obtain ⟨hbword, h92⟩ := isBarewordString_bytes hbw b hb
      obtain ⟨hsp, h39, h34, h10⟩ := isBareword_byte_facts hbword
      exact ⟨hsp, h39, h34, h10, h92⟩
    obtain ⟨sc2, hrun, hs2, hp2⟩ := parseBarewordLoop_plain_run a sc sc.pos [] [] rest
      hplain hdrop hstop (Nat.le_refl _) (subSlice_empty _ _)
    refine ⟨sc2, ?_, hs2, ?_⟩
    · rw [Scanner.parseBareword, hrun]
      simp
    · rw [hs2, hp2]
      exact drop_of_drop_append hdrop
  · rw [if_neg hbw, quoteArg] at hdrop
    by_cases hbr : a.any (fun b => b == 123 || b == 125) = true
    · rw [if_pos hbr] at hdrop
      exact parseBareword_quoted quoteArgEscByte a sc rest
        (fun b hb => chunkOK_manual (hok b hb))
        (by rw [hdrop]; simp [List.append_assoc]) hstop
    · rw [if_neg hbr, strconvQuote] at hdrop
      exact parseBareword_quoted strconvEscByte a sc rest
        (fun b hb => chunkOK_strconv (hok b hb))
        (by rw [hdrop]; simp [List.append_assoc]) hstop

/-- The first byte of a formatted argument is never a separator and always
dispatches `Next` into the bareword sub-parser. -/
theorem formatArg_shape (a : List Nat) :
    ∃ c cs, formatArg a = c :: cs ∧ isSpace c = false ∧
      (isBareword c || isQuote1 c || isQuote2 c || (c == 92)) = true := by
  rw [formatArg]
  by_cases hbw : isBarewordString a = true
  · rw [if_pos hbw]
    have hne : a ≠ [] := by
      intro he
      rw [he] at hbw
      exact absurd hbw (by decide)
    obtain ⟨c, cs, rfl⟩ := List.exists_cons_of_ne_nil hne
    have hc := isBarewordString_bytes hbw c (List.mem_cons_self c cs)
    refine ⟨c, cs, rfl, (isBareword_byte_facts hc.1).1, ?_⟩
    rw [hc.1]
    rfl
  · rw [if_neg hbw, quoteArg]
    by_cases hbr : a.any (fun b => b == 123 || b == 125) = true
    · rw [if_pos hbr]
      exact ⟨34, _, rfl, by decide, by decide⟩
    · rw [if_neg hbr, strconvQuote]
      exact ⟨34, _, rfl, by decide, by decide⟩

theorem intercalate_sep_single (x : List Nat) : List.intercalate [32] [x] = x := by
  simp [List.intercalate]

theorem intercalate_sep_cons (x y : List Nat) (t : List (List Nat)) :
    List.intercalate [32] (x :: y :: t) = x ++ 32 :: List.intercalate [32] (y :: t) := by
  simp [List.intercalate, List.intersperse]

/-- The dispatch loop of `Next` consumes a space-separated run of formatted
ASCII arguments and accumulates exactly the original argument list, leaving
the cursor at the given tail (which is empty or starts with a space). -/
theorem NextLoop_formatted_args (A : List (List Nat)) :
    ∀ (sc : Scanner) (acc : List (List Nat)) (tail : List Nat),
      (∀ a ∈ A, ∀ b ∈ a, b = 9 ∨ b = 10 ∨ b = 13 ∨ (32 ≤ b ∧ b < 127)) →
      sc.s.drop sc.pos = List.intercalate [32] (A.map formatArg) ++ tail →
      (tail = [] ∨ ∃ t, tail = 32 :: t) →
      ∃ sc2 : Scanner, sc.NextLoop acc = sc2.NextLoop (acc ++ A) ∧ sc2.s = sc.s ∧
        sc2.s.drop sc2.pos = tail := by
  induction A with
  | nil =>
    intro sc acc tail hA hdrop htail
    refine ⟨sc, ?_, rfl, ?_⟩
    · rw [List.append_nil]
    · simpa using hdrop
  | cons a A2 ih =>
    intro sc acc tail hA hdrop htail
    obtain ⟨c, cs, hfa, hcsp, hcg⟩ := formatArg_shape a
    cases A2 with
    | nil =>
      rw [List.map_cons, List.map_nil, intercalate_sep_single] at hdrop
      have hstop : tail = [] ∨ ∃ b t, tail = b :: t ∧ (isSpace b = true ∨ b = 10) := by
        rcases htail with h | ⟨t, ht⟩
        · exact Or.inl h
        · exact Or.inr ⟨32, t, ht, Or.inl (by decide)⟩
      obtain ⟨scb, hbw, hbs, hbd⟩ := parseBareword_formatArg a sc tail
        (hA a (List.mem_cons_self a [])) hdrop hstop
      have hdrop2 := hdrop
      rw [hfa] at hdrop2
      simp only [List.cons_append] at hdrop2
      have hlt : sc.pos < sc.s.length := drop_pos_lt hdrop2
      have hb : sc.s[sc.pos] = c := getElem_of_drop hdrop2 hlt
      refine ⟨scb, ?_, hbs, hbd⟩
      conv_lhs => rw [Scanner.NextLoop]
      rw [dif_pos hlt, hb, if_neg (by simp [hcsp]), if_pos hcg, dif_pos (by rw [hbw]), hbw]
    | cons a2 A3 =>
      simp only [List.map_cons] at hdrop
      rw [intercalate_sep_cons, List.append_assoc] at hdrop
      simp only [List.cons_append] at hdrop
      obtain ⟨scb, hbw, hbs, hbd⟩ := parseBareword_formatArg a sc
        (32 :: (List.intercalate [32] (formatArg a2 :: A3.map formatArg) ++ tail))
        (hA a (List.mem_cons_self a (a2 :: A3))) hdrop
        (Or.inr ⟨32, _, rfl, Or.inl (by decide)⟩)
      have hdrop2 := hdrop
      rw [hfa] at hdrop2
      simp only [List.cons_append] at hdrop2
      have hlt : sc.pos < sc.s.length := drop_pos_lt hdrop2
      have hb : sc.s[sc.pos] = c := getElem_of_drop hdrop2 hlt
      have hlt2 : scb.pos < scb.s.length := drop_pos_lt hbd
      have hb2 : scb.s[scb.pos] = 32 := getElem_of_drop hbd hlt2
      have hd3 : scb.s.drop (scb.pos + 1) =
          List.intercalate [32] (formatArg a2 :: A3.map formatArg) ++ tail :=
        drop_succ_of_drop hbd
      obtain ⟨sc2, hrec, hs2, hd4⟩ := ih scb.advance (acc ++ [a]) tail
        (fun x hx => hA x (List.mem_cons_of_mem _ hx))
        (by rw [Scanner.advance_s, Scanner.advance_pos]
            simp only [List.map_cons]
            exact hd3)
        htail
      refine ⟨sc2, ?_, ?_, hd4⟩
      · have e1 : sc.NextLoop acc = scb.NextLoop (acc ++ [a]) := by
          conv_lhs => rw [Scanner.NextLoop]
          rw [dif_pos hlt, hb, if_neg (by simp [hcsp]), if_pos hcg, dif_pos (by rw [hbw]), hbw]
        have e2 : scb.NextLoop (acc ++ [a]) = scb.advance.NextLoop (acc ++ [a]) := by
          conv_lhs => rw [Scanner.NextLoop]
          rw [dif_pos hlt2, hb2, if_pos (by decide)]
        rw [e1, e2, hrec]
        congr 1
        simp
      · rw [hs2, Scanner.advance_s, hbs]

/-- The brace-content shape that `parseBraceLoop` accepts from nesting depth
`stack`: unescaped braces move the depth, and the byte run ends exactly when
a closing brace brings the depth to zero. -/
def closesAt : Nat → List Nat → Bool
  | _, [] => false
  | stack, b :: t =>
    if b = 123 then closesAt (stack + 1) t
    else if b = 125 then (if stack = 1 then t.isEmpty else closesAt (stack - 1) t)
    else closesAt stack t

theorem closesAt_ne_nil {stack : Nat} (h : closesAt stack [] = true) : False := by
  simp [closesAt] at h

theorem dropLast_cons_of_ne_nil {b : Nat} {t : List Nat} (h : t ≠ []) :
    (b :: t).dropLast = b :: t.dropLast := by
  cases t with
  | nil => exact absurd rfl h
  | cons y ys => rfl

/-- The brace scan loop on a backslash-free content run that closes exactly
at its last byte: everything up to (not including) the final closing brace
is collected, `dedent` is applied, and the cursor stops right after it. -/
theorem parseBraceLoop_closed (c : List Nat) :
    ∀ (sc : Scanner) (i : Nat) (out p rest : List Nat) (stack : Nat),
      1 ≤ stack →
      closesAt stack c = true →
      (92 : Nat) ∉ c →
      sc.s.drop sc.pos = c ++ rest →
      i ≤ sc.pos → subSlice sc.s i sc.pos = p →
      ∃ sc2, sc.parseBraceLoop i out stack =
        (sc2, dedent (out ++ p ++ c.dropLast), none) := by
  induction c with
  | nil =>
    intro sc i out p rest stack hst hcl
    exact absurd hcl (by simp [closesAt])
  | cons b t ih =>
    intro sc i out p rest stack hst hcl hns hdrop hip hsl
    have hlt : sc.pos < sc.s.length := drop_pos_lt hdrop
    have hb : sc.s[sc.pos] = b := getElem_of_drop hdrop hlt
    have hd2 : sc.s.drop (sc.pos + 1) = t ++ rest := drop_succ_of_drop hdrop
    have hb92 : b ≠ 92 := by
      intro he
      exact hns (by rw [← he]; exact List.mem_cons_self b t)
    have hns2 : (92 : Nat) ∉ t := fun hm => hns (List.mem_cons_of_mem _ hm)
    have hext : subSlice sc.s i (sc.pos + 1) = p ++ [b] := by
      rw [subSlice_extend hip hdrop, hsl]
    simp only [closesAt] at hcl
    by_cases h123 : b = 123
    · rw [if_pos h123] at hcl
      subst h123
      have htne : t ≠ [] := by
        intro he
        rw [he] at hcl
        exact closesAt_ne_nil hcl
      obtain ⟨sc2, hrun⟩ := ih sc.advance i out (p ++ [123]) rest (stack + 1)
        (by omega) hcl hns2
        (by rw [Scanner.advance_s, Scanner.advance_pos]; exact hd2)
        (by rw [Scanner.advance_pos]; omega)
        (by rw [Scanner.advance_s, Scanner.advance_pos]; exact hext)
      refine ⟨sc2, ?_⟩
      rw [Scanner.parseBraceLoop, dif_pos hlt, hb, if_neg (by decide), if_pos rfl, hrun,
        dropLast_cons_of_ne_nil htne]
      congr 2
      simp
    · by_cases h125 : b = 125
      · rw [if_neg h123, if_pos h125] at hcl
        subst h125
        by_cases hs1 : stack = 1
        · rw [if_pos hs1] at hcl
          have htnil : t = [] := by
            cases t with
            | nil => rfl
            | cons y ys => exact absurd hcl (by simp)
          subst htnil
          refine ⟨sc.advance, ?_⟩
          rw [Scanner.parseBraceLoop, dif_pos hlt, hb, if_neg (by decide),
            if_neg (by decide), if_pos rfl, if_pos (by omega), hsl]
          simp
        · rw [if_neg hs1] at hcl
          have htne : t ≠ [] := by
            intro he
            rw [he] at hcl
            exact closesAt_ne_nil hcl
          obtain ⟨sc2, hrun⟩ := ih sc.advance i out (p ++ [125]) rest (stack - 1)
            (by omega) hcl hns2
            (by rw [Scanner.advance_s, Scanner.advance_pos]; exact hd2)
            (by rw [Scanner.advance_pos]; omega)
            (by rw [Scanner.advance_s, Scanner.advance_pos]; exact hext)
          refine ⟨sc2, ?_⟩
          rw [Scanner.parseBraceLoop, dif_pos hlt, hb, if_neg (by decide),
            if_neg (by decide), if_pos rfl, if_neg (by omega), hrun,
            dropLast_cons_of_ne_nil htne]
          congr 2
          simp
      · rw [if_neg h123, if_neg h125] at hcl
        have htne : t ≠ [] := by
          intro he
          rw [he] at hcl
          exact closesAt_ne_nil hcl
        obtain ⟨sc2, hrun⟩ := ih sc.advance i out (p ++ [b]) rest stack
          hst hcl hns2
          (by rw [Scanner.advance_s, Scanner.advance_pos]; exact hd2)
          (by rw [Scanner.advance_pos]; omega)
          (by rw [Scanner.advance_s, Scanner.advance_pos]; exact hext)
        refine ⟨sc2, ?_⟩
        rw [Scanner.parseBraceLoop, dif_pos hlt, hb, if_neg hb92, if_neg h123,
          if_neg h125, hrun, dropLast_cons_of_ne_nil htne]
        congr 2
        simp

/-- `parseBrace` on a brace block whose backslash-free content closes at its
final byte: the collected content (without the final closing brace) is
dedented and returned. -/
theorem parseBrace_closed (c : List Nat) (sc : Scanner) (rest : List Nat)
    (hcl : closesAt 1 c = true) (hns : (92 : Nat) ∉ c)
    (hdrop : sc.s.drop sc.pos = 123 :: (c ++ rest)) :
    ∃ sc2, sc.parseBrace = (sc2, dedent c.dropLast, none) := by
  have hd2 : sc.s.drop (sc.pos + 1) = c ++ rest := drop_succ_of_drop hdrop
  obtain ⟨sc2, hrun⟩ := parseBraceLoop_closed c sc.advance sc.advance.pos [] [] rest 1
    (Nat.le_refl 1) hcl hns
    (by rw [Scanner.advance_s, Scanner.advance_pos]; exact hd2)
    (Nat.le_refl _) (subSlice_empty _ _)
  refine ⟨sc2, ?_⟩
  rw [Scanner.parseBrace, hrun]
  simp

theorem consPrefixCons {b : Nat} {p t : List Nat} (h : p <+: t) : b :: p <+: b :: t := by
  obtain ⟨s, rfl⟩ := h
  exact ⟨s, rfl⟩

theorem prefixAppendCases {p u v : List Nat} (h : p <+: u ++ v) :
    p <+: u ∨ ∃ q, p = u ++ q ∧ q <+: v := by
  rcases Nat.le_total p.length u.length with hle | hle
  · exact Or.inl (List.prefix_of_prefix_length_le h (List.prefix_append u v) hle)
  · right
    have hu : u <+: p := List.prefix_of_prefix_length_le (List.prefix_append u v) h hle
    obtain ⟨q, rfl⟩ := hu
    refine ⟨q, rfl, ?_⟩
    obtain ⟨s, hs⟩ := h
    rw [List.append_assoc] at hs
    exact ⟨s, List.append_cancel_left hs⟩

theorem prefixSingletonCases {r : List Nat} {a : Nat} (h : r <+: [a]) :
    r = [] ∨ r = [a] := by
  obtain ⟨s, hs⟩ := h
  cases r with
  | nil => exact Or.inl rfl
  | cons y ys =>
    right
    simp only [List.cons_append] at hs
    injection hs with h1 h2
    subst h1
    obtain ⟨hy, _⟩ := List.append_eq_nil.mp h2
    rw [hy]

/-- Counting characterisation of `closesAt`: if every proper prefix keeps
the running depth positive and the whole run brings it exactly to zero, the
brace scan closes at the final byte. -/
theorem closesAt_of_counts (c : List Nat) :
    ∀ stack : Nat, 1 ≤ stack → c ≠ [] →
      (∀ p : List Nat, p <+: c → p ≠ c →
        List.count 125 p < stack + List.count 123 p) →
      List.count 125 c = stack + List.count 123 c →
      closesAt stack c = true := by
  induction c with
  | nil =>
    intro stack _ hne _ _
    exact absurd rfl hne
  | cons b t ih =>
    intro stack hst hne hpref hfull
    simp only [closesAt]
    by_cases h123 : b = 123
    · rw [if_pos h123]
      subst h123
      rw [List.count_cons_of_ne (by decide), List.count_cons_self] at hfull
      have htne : t ≠ [] := by
        intro he
        subst he
        simp only [List.count_nil] at hfull
        omega
      apply ih (stack + 1) (by omega) htne
      · intro p hp hpne
        have h2 := hpref (123 :: p) (consPrefixCons hp)
          (by intro he; injection he with e1 e2; exact hpne e2)
        rw [List.count_cons_of_ne (by decide), List.count_cons_self] at h2
        omega
      · omega
    · by_cases h125 : b = 125
      · rw [if_neg h123, if_pos h125]
        subst h125
        rw [List.count_cons_self, List.count_cons_of_ne (by decide)] at hfull
        by_cases hs1 : stack = 1
        · rw [if_pos hs1]
          cases t with
          | nil => rfl
          | cons y ys =>
            have h2 := hpref [125] ⟨y :: ys, rfl⟩ (by simp)
            rw [hs1] at h2
            simp [List.count_cons, List.count_nil] at h2
        · rw [if_neg hs1]
          have hst2 : 2 ≤ stack := by omega
          have htne : t ≠ [] := by
            intro he
            subst he
            simp only [List.count_nil] at hfull
            omega
          apply ih (stack - 1) (by omega) htne
          · intro p hp hpne
            have h2 := hpref (125 :: p) (consPrefixCons hp)
              (by intro he; injection he with e1 e2; exact hpne e2)
            rw [List.count_cons_self, List.count_cons_of_ne (by decide)] at h2
            omega
          · omega
      · rw [if_neg h123, if_neg h125]
        rw [List.count_cons_of_ne (Ne.symm h125), List.count_cons_of_ne (Ne.symm h123)]
          at hfull
        have htne : t ≠ [] := by
          intro he
          subst he
          simp [List.count_nil] at hfull
          omega
        apply ih stack hst htne
        · intro p hp hpne
          have h2 := hpref (b :: p) (consPrefixCons hp)
            (by intro he; injection he with e1 e2; exact hpne e2)
          rw [List.count_cons_of_ne (Ne.symm h125), List.count_cons_of_ne (Ne.symm h123)]
            at h2
          exact h2
        · exact hfull

/-- C1 (amended): the round trip holds for ASCII argument lists and bodies
that the formatter can represent faithfully: every argument byte is tab,
newline, carriage return or printable ASCII; the command is non-empty; the
body contains no backslash, its unescaped braces are balanced and never
close below depth zero, and the delimited body `"\n" ++ B ++ "\n"` is a
fixed point of `dedent`.  Then parsing `Format A B` yields exactly the
arguments `A`, the body `"\n" ++ B ++ "\n"` when `B` is non-empty and the
empty body when `B` is empty, with no error.  (The counterexample shows the
`dedent` hypothesis cannot be dropped; an absent body is the empty string,
see C4.) -/
theorem roundTripFormatParse (A : List (List Nat)) (B : List Nat)
    (hA : ∀ a ∈ A, ∀ b ∈ a, b = 9 ∨ b = 10 ∨ b = 13 ∨ (32 ≤ b ∧ b < 127))
    (hne : A ≠ [] ∨ B ≠ [])
    (hB92 : (92 : Nat) ∉ B)
    (hbal : ∀ p : List Nat, p <+: B → List.count 125 p ≤ List.count 123 p)
    (hbalEq : List.count 123 B = List.count 125 B)
    (hded : dedent (10 :: (B ++ [10])) = 10 :: (B ++ [10])) :
    (NewScanner (Format A B)).Next.2 =
      (A, if B = [] then [] else 10 :: (B ++ [10]), none) := by
  by_cases hB : B = []
  · subst hB
    rw [if_pos rfl]
    have hAne : A ≠ [] := by
      rcases hne with h | h
      · exact h
      · exact absurd rfl h
    have hfmt : Format A [] = List.intercalate [32] (A.map formatArg) := by
      simp [Format, FormatIndent]
    have hdrop : (NewScanner (Format A [])).s.drop (NewScanner (Format A [])).pos =
        List.intercalate [32] (A.map formatArg) ++ [] := by
      show (Format A []).drop 0 = _
      rw [List.drop_zero, List.append_nil, hfmt]
    obtain ⟨sc2, hM, hs2, hd2⟩ := NextLoop_formatted_args A (NewScanner (Format A []))
      [] [] hA hdrop (Or.inl rfl)
    rw [Scanner.Next, hM]
    simp only [List.nil_append]
    have hlen : sc2.s.length ≤ sc2.pos := by
      have hl := congrArg List.length hd2
      simp only [List.length_drop, List.length_nil] at hl
      omega
    rw [Scanner.NextLoop, dif_neg (by omega), if_neg hAne]
  · rw [if_neg hB]
    have hfmt : Format A B = List.intercalate [32] (A.map formatArg) ++
        (32 :: 123 :: (10 :: (B ++ [10, 125]))) := by
      simp [Format, FormatIndent, hB, List.append_assoc]
    have hdrop0 : (NewScanner (Format A B)).s.drop (NewScanner (Format A B)).pos =
        List.intercalate [32] (A.map formatArg) ++ (32 :: 123 :: (10 :: (B ++ [10, 125]))) := by
      show (Format A B).drop 0 = _
      rw [List.drop_zero, hfmt]
    obtain ⟨sc2, hM, hs2, hd2⟩ := NextLoop_formatted_args A (NewScanner (Format A B)) []
      (32 :: 123 :: (10 :: (B ++ [10, 125]))) hA hdrop0 (Or.inr ⟨_, rfl⟩)
    have hlt2 : sc2.pos < sc2.s.length := drop_pos_lt hd2
    have hb2 : sc2.s[sc2.pos] = 32 := getElem_of_drop hd2 hlt2
    have hd3 : sc2.s.drop (sc2.pos + 1) = 123 :: (10 :: (B ++ [10, 125])) :=
      drop_succ_of_drop hd2
    have hd3a : sc2.advance.s.drop sc2.advance.pos =
        123 :: ((10 :: (B ++ [10, 125])) ++ []) := by
      rw [Scanner.advance_s, Scanner.advance_pos, hd3]
      simp
    have hBB : List.count 125 B ≤ List.count 123 B := hbal B (List.prefix_refl B)
    have hcl : closesAt 1 (10 :: (B ++ [10, 125])) = true := by
      apply closesAt_of_counts _ 1 (Nat.le_refl 1) (by simp)
      · intro p hp hpne
        cases p with
        | nil =>
          simp only [List.count_nil]
          omega
        | cons y q =>
          obtain ⟨s, hs⟩ := hp
          simp only [List.cons_append] at hs
          injection hs with e1 e2
          subst e1
          have hq : q <+: B ++ [10, 125] := ⟨s, e2⟩
          have hqne : q ≠ B ++ [10, 125] := by
            intro he
            exact hpne (by rw [he])
          rw [List.count_cons_of_ne (by decide), List.count_cons_of_ne (by decide)]
          have h2 : q <+: B ++ ([10] ++ [125]) := hq
          rcases prefixAppendCases h2 with hqB | ⟨r, hqr, hr⟩
          · have := hbal q hqB
            omega
          · rcases prefixAppendCases hr with hr10 | ⟨r2, hr2, hr125⟩
            · rcases prefixSingletonCases hr10 with h0 | h0 <;>
                · subst h0
                  subst hqr
                  simp [List.count_append, List.count_cons, List.count_nil]
                  omega
            · rcases prefixSingletonCases hr125 with h0 | h0
              · subst h0
                subst hr2
                subst hqr
                simp [List.count_append, List.count_cons, List.count_nil]
                omega
              · subst h0
                subst hr2
                subst hqr
                exact absurd (by simp) hqne
      · simp [List.count_append, List.count_cons, List.count_nil]
        omega
    have hns : (92 : Nat) ∉ 10 :: (B ++ [10, 125]) := by
      intro hm
      rcases List.mem_cons.mp hm with h | h
      · exact absurd h (by decide)
      · rcases List.mem_append.mp h with h | h
        · exact hB92 h
        · exact absurd h (by decide)
    obtain ⟨sc4, hpb⟩ := parseBrace_closed (10 :: (B ++ [10, 125])) sc2.advance [] hcl hns hd3a
    have hcdl : ((10 : Nat) :: (B ++ [10, 125])).dropLast = 10 :: (B ++ [10]) := by
      have he : (10 : Nat) :: (B ++ [10, 125]) = (10 :: (B ++ [10])) ++ [125] := by simp
      rw [he, List.dropLast_concat]
    rw [hcdl, hded] at hpb
    rw [Scanner.Next, hM]
    simp only [List.nil_append]
    have hlt3 : sc2.advance.pos < sc2.advance.s.length := drop_pos_lt hd3a
    have hb3 : sc2.advance.s[sc2.advance.pos] = 123 := getElem_of_drop hd3a hlt3
    rw [Scanner.NextLoop, dif_pos hlt2, hb2, if_pos (by decide)]
    rw [Scanner.NextLoop, dif_pos hlt3, hb3, if_neg (by decide), if_neg (by decide),
      if_neg (by decide), if_pos (by decide), hpb]
    rfl

/-- Witness for C1: the one-argument command `c` with an empty body
round-trips; `Format` emits no brace block, and parsing returns the single
argument with the empty body string. -/
theorem roundTripFormatParse_witness :
    (NewScanner (Format [[99]] [])).Next.2 = ([[99]], [], none) := by
  have h := roundTripFormatParse [[99]] [] (by decide) (Or.inl (by decide)) (by decide)
    (fun p hp => by rw [List.prefix_nil.mp hp]; decide) (by decide) (by decide)
  simpa using h
